import Mathlib

/-!
Shallow embedding of `automation.py` (earnings-trade screening engine) and
verification of the frozen claims about it.  Market-data quantities (prices,
strikes, implied volatilities, bid/ask) are modelled as exact rationals;
dates are modelled as integers (days); the Yang-Zhang estimator, which uses
`log` and `sqrt`, is modelled over the reals.  `NaN` values arising from
pandas/numpy missing data are modelled as `Option.none`.
-/

namespace EarningsAuto

/-! ### Generic list helpers

`ssLeft` is `numpy.searchsorted(xs, c, side="left")`: the index of the first
element `x` of `xs` with `c ≤ x`, or `xs.length` when there is none.
`sortOn f` is a stable sort by the key `f`, matching both Python's `sorted`
(Timsort, stable) and numpy's argsort on small arrays (insertion sort).
-/

def ssLeft [LinearOrder α] (c : α) : List α → ℕ
  | [] => 0
  | x :: xs => if c ≤ x then 0 else ssLeft c xs + 1

instance {ε α : Type} [DecidableEq ε] [DecidableEq α] : DecidableEq (Except ε α) := fun a b =>
  match a, b with
  | .error x, .error y =>
    if h : x = y then isTrue (by rw [h]) else isFalse (fun hh => h (Except.error.inj hh))
  | .ok x, .ok y =>
    if h : x = y then isTrue (by rw [h]) else isFalse (fun hh => h (Except.ok.inj hh))
  | .error _, .ok _ => isFalse (fun hh => Except.noConfusion hh)
  | .ok _, .error _ => isFalse (fun hh => Except.noConfusion hh)

/-- Key-ordering relation used for sorting pairs by their first component. -/
def keyLe [LinearOrder κ] (p q : κ × α) : Prop := p.1 ≤ q.1

instance [LinearOrder κ] : DecidableRel (α := κ × α) keyLe :=
  fun p q => inferInstanceAs (Decidable (p.1 ≤ q.1))

instance [LinearOrder κ] : IsTotal (κ × α) keyLe := ⟨fun p q => le_total p.1 q.1⟩

instance [LinearOrder κ] : IsTrans (κ × α) keyLe := ⟨fun _ _ _ h1 h2 => le_trans h1 h2⟩

/-- Stable sort by a key function (Timsort / numpy small-array insertion sort). -/
def sortOn [LinearOrder κ] (f : α → κ) (l : List α) : List α :=
  ((l.map (fun a => (f a, a))).insertionSort keyLe).map (fun p => p.2)

/-! ### Expiration filter (`filter_dates`)

For a list of expiration dates (modelled as integer days), sort ascending,
take the prefix up to and including the first date at least 45 days past
`today`, drop the first element when it equals `today`, and fail when no
date reaches the cutoff.
-/

inductive FilterErr
  | insufficientHorizon
deriving DecidableEq

/-- The loop body of `filter_dates` on the already-sorted date list: take
the prefix up to and including the first date at least 45 days out, drop
its head when it equals today, and fail when no date reaches the cutoff
(the `headD` default is irrelevant: the prefix is never empty). -/
def filterSorted (today : ℤ) (s : List ℤ) : Except FilterErr (List ℤ) :=
  if ssLeft (today + 45) s < s.length then
    if (s.take (ssLeft (today + 45) s + 1)).headD (today + 1) = today
    then .ok ((s.take (ssLeft (today + 45) s + 1)).drop 1)
    else .ok (s.take (ssLeft (today + 45) s + 1))
  else .error .insufficientHorizon

def filter_dates (today : ℤ) (dates : List ℤ) : Except FilterErr (List ℤ) :=
  filterSorted today (List.insertionSort (· ≤ ·) dates)

/-! ### Term structure model (`build_term_structure` / `term_spline`)

`build_term_structure(days, ivs)` raises when fewer than 2 distinct
days-to-expiry are present, sorts the parallel arrays by days (argsort),
and returns a closure over `scipy.interpolate.interp1d(..., kind="linear",
fill_value="extrapolate")`.  With that `fill_value`, scipy does not use the
`numpy.interp` fast path; its `_call_linear` computes
`idx = clip(searchsorted(x, d), 1, len(x)-1)` and interpolates linearly
between `x[idx-1]` and `x[idx]`.  When those two abscissae coincide
(duplicated days) the float slope is `inf`/`nan` and the query value is
`nan`, modelled here as `none`.
-/

inductive TsErr
  | degenerateTermStructure
deriving DecidableEq

structure TermStruct where
  xs : List ℚ
  ys : List ℚ
deriving DecidableEq

def build_term_structure (days ivs : List ℚ) : Except TsErr TermStruct :=
  if days.dedup.length < 2 then .error .degenerateTermStructure
  else
    let pairs := sortOn (fun p => p.1) (days.zip ivs)
    .ok ⟨pairs.map (fun p => p.1), pairs.map (fun p => p.2)⟩

/-- The clipped bracket index of scipy's `_call_linear`:
`clip(searchsorted(x, d), 1, len(x)-1)`. -/
def clipIdx (xs : List ℚ) (d : ℚ) : ℕ := min (max (ssLeft d xs) 1) (xs.length - 1)

/-- scipy `interp1d` linear evaluation between `x[i-1]` and `x[i]` for the
clipped index `i`; `none` models the float `nan` produced when the two
bracketing abscissae coincide (zero denominator). -/
def callLinear (xs ys : List ℚ) (d : ℚ) : Option ℚ :=
  if xs.getD (clipIdx xs d) 0 = xs.getD (clipIdx xs d - 1) 0 then none
  else some (ys.getD (clipIdx xs d - 1) 0 +
    (ys.getD (clipIdx xs d) 0 - ys.getD (clipIdx xs d - 1) 0) /
      (xs.getD (clipIdx xs d) 0 - xs.getD (clipIdx xs d - 1) 0) *
      (d - xs.getD (clipIdx xs d - 1) 0))

def term_spline (ts : TermStruct) (dte : ℚ) : Option ℚ :=
  if dte < ts.xs.headD 0 then some (ts.ys.headD 0)
  else if dte > ts.xs.getLastD 0 then some (ts.ys.getLastD 0)
  else callLinear ts.xs ts.ys dte

/-! ### Yang-Zhang realized-volatility estimator (`yang_zhang`)

Pandas series are modelled as index-valued partial functions
`ℕ → Option ℝ`, with `none` for `NaN`.  `shift(1)` makes the entry at
index 0 undefined; a rolling sum over `window` entries is defined only
when the window is full and every entry in it is defined (pandas
`min_periods` defaults to the window size and `NaN`s count as missing).
-/

/-- One OHLC bar (columns `Open`, `High`, `Low`, `Close` of the source). -/
structure PriceBar where
  op : ℝ
  hi : ℝ
  lo : ℝ
  cl : ℝ

def barAt (bars : List PriceBar) (i : ℕ) : Option PriceBar := bars.get? i

noncomputable def log_ho (bars : List PriceBar) (i : ℕ) : Option ℝ :=
  (barAt bars i).map (fun b => Real.log (b.hi / b.op))

noncomputable def log_lo (bars : List PriceBar) (i : ℕ) : Option ℝ :=
  (barAt bars i).map (fun b => Real.log (b.lo / b.op))

noncomputable def log_co (bars : List PriceBar) (i : ℕ) : Option ℝ :=
  (barAt bars i).map (fun b => Real.log (b.cl / b.op))

noncomputable def log_oc (bars : List PriceBar) (i : ℕ) : Option ℝ :=
  match i with
  | 0 => none
  | j + 1 =>
    match barAt bars (j + 1), barAt bars j with
    | some b, some p => some (Real.log (b.op / p.cl))
    | _, _ => none

noncomputable def log_oc_sq (bars : List PriceBar) (i : ℕ) : Option ℝ :=
  (log_oc bars i).map (fun x => x ^ 2)

noncomputable def log_cc (bars : List PriceBar) (i : ℕ) : Option ℝ :=
  match i with
  | 0 => none
  | j + 1 =>
    match barAt bars (j + 1), barAt bars j with
    | some b, some p => some (Real.log (b.cl / p.cl))
    | _, _ => none

noncomputable def log_cc_sq (bars : List PriceBar) (i : ℕ) : Option ℝ :=
  (log_cc bars i).map (fun x => x ^ 2)

noncomputable def rsSeries (bars : List PriceBar) (i : ℕ) : Option ℝ :=
  match log_ho bars i, log_lo bars i, log_co bars i with
  | some ho, some lo, some co => some (ho * (ho - co) + lo * (lo - co))
  | _, _, _ => none

noncomputable def rollSum (w : ℕ) (s : ℕ → Option ℝ) (i : ℕ) : Option ℝ :=
  if w ≤ i + 1 ∧ ∀ j ∈ Finset.Ico (i + 1 - w) (i + 1), (s j).isSome
  then some (∑ j in Finset.Ico (i + 1 - w) (i + 1), (s j).getD 0)
  else none

noncomputable def close_vol (bars : List PriceBar) (w i : ℕ) : Option ℝ :=
  (rollSum w (log_cc_sq bars) i).map (fun x => x * (1 / ((w : ℝ) - 1)))

noncomputable def open_vol (bars : List PriceBar) (w i : ℕ) : Option ℝ :=
  (rollSum w (log_oc_sq bars) i).map (fun x => x * (1 / ((w : ℝ) - 1)))

noncomputable def window_rs (bars : List PriceBar) (w i : ℕ) : Option ℝ :=
  (rollSum w (rsSeries bars) i).map (fun x => x * (1 / ((w : ℝ) - 1)))

noncomputable def yzK (w : ℕ) : ℝ := 0.34 / (1.34 + ((w : ℝ) + 1) / ((w : ℝ) - 1))

noncomputable def yzSeries (bars : List PriceBar) (w : ℕ) (T : ℝ) (i : ℕ) : Option ℝ :=
  match open_vol bars w i, close_vol bars w i, window_rs bars w i with
  | some o, some c, some r =>
    some (Real.sqrt (o + yzK w * c + (1 - yzK w) * r) * Real.sqrt T)
  | _, _, _ => none

/-- `yang_zhang(price_data, window, trading_periods, return_last_only=True)`:
the value of the rolling series at the latest date (`result.iloc[-1]`). -/
noncomputable def yang_zhang (bars : List PriceBar) (w : ℕ) (T : ℝ) : Option ℝ :=
  yzSeries bars w T (bars.length - 1)

/-- Default bar used to state the closed-form window sums with total
indexing; all index arithmetic in the theorems stays in bounds. -/
def defaultBar : PriceBar := ⟨1, 1, 1, 1⟩

noncomputable def ozTerm (bars : List PriceBar) (j : ℕ) : ℝ :=
  Real.log ((bars.getD j defaultBar).op / (bars.getD (j - 1) defaultBar).cl) ^ 2

noncomputable def ccTerm (bars : List PriceBar) (j : ℕ) : ℝ :=
  Real.log ((bars.getD j defaultBar).cl / (bars.getD (j - 1) defaultBar).cl) ^ 2

noncomputable def rsTerm (bars : List PriceBar) (j : ℕ) : ℝ :=
  Real.log ((bars.getD j defaultBar).hi / (bars.getD j defaultBar).op) *
      (Real.log ((bars.getD j defaultBar).hi / (bars.getD j defaultBar).op) -
        Real.log ((bars.getD j defaultBar).cl / (bars.getD j defaultBar).op)) +
    Real.log ((bars.getD j defaultBar).lo / (bars.getD j defaultBar).op) *
      (Real.log ((bars.getD j defaultBar).lo / (bars.getD j defaultBar).op) -
        Real.log ((bars.getD j defaultBar).cl / (bars.getD j defaultBar).op))

/-- Overnight variance component at the latest date: window sum of
`ln(Open/prevClose)^2` scaled by `1/(window-1)`. -/
noncomputable def yzOvernight (bars : List PriceBar) (w : ℕ) : ℝ :=
  (∑ j in Finset.Ico (bars.length - w) bars.length, ozTerm bars j) * (1 / ((w : ℝ) - 1))

/-- Close-to-close variance component at the latest date. -/
noncomputable def yzCloseToClose (bars : List PriceBar) (w : ℕ) : ℝ :=
  (∑ j in Finset.Ico (bars.length - w) bars.length, ccTerm bars j) * (1 / ((w : ℝ) - 1))

/-- Rogers-Satchell-style intraday component at the latest date. -/
noncomputable def yzIntraday (bars : List PriceBar) (w : ℕ) : ℝ :=
  (∑ j in Finset.Ico (bars.length - w) bars.length, rsTerm bars j) * (1 / ((w : ℝ) - 1))

/-! ### Market-data model for the screening engine

The Alpaca (primary) provider: an option chain maps expiration dates to
strike entries; each side may lack a contract, the snapshot lookup may
return nothing, a snapshot may lack a latest quote, and a quote may lack
bid or ask; the implied volatility may be absent.  The Yahoo (secondary)
provider: per-expiration call and put tables with strike, implied
volatility and optional bid/ask.
-/

structure AlpacaQuote where
  bid_price : Option ℚ
  ask_price : Option ℚ
deriving DecidableEq

structure AlpacaSnapshot where
  latest_quote : Option AlpacaQuote
  implied_volatility : Option ℚ
deriving DecidableEq

/-- One strike row of the Alpaca chain: the outer `Option` is contract
presence in the chain, the inner one is the snapshot-request result. -/
structure AlpacaStrikeEntry where
  strike : ℚ
  call : Option (Option AlpacaSnapshot)
  put : Option (Option AlpacaSnapshot)
deriving DecidableEq

/-- The data extracted at the first strike passing all validity checks. -/
structure AlpacaHit where
  avgIv : ℚ
  callBid : Option ℚ
  callAsk : Option ℚ
  putBid : Option ℚ
  putAsk : Option ℚ
deriving DecidableEq

/-- The per-strike validity checks of the Alpaca loop, in source order:
both contracts present, both snapshots returned, both latest quotes
present, both implied volatilities present; on success the ATM implied
volatility is the mean of the call and put IVs at this one strike. -/
def entryHit (e : AlpacaStrikeEntry) : Option AlpacaHit :=
  match e.call, e.put with
  | some (some cs), some (some ps) =>
    match cs.latest_quote, ps.latest_quote, cs.implied_volatility, ps.implied_volatility with
    | some cq, some pq, some civ, some piv =>
      some ⟨(civ + piv) / 2, cq.bid_price, cq.ask_price, pq.bid_price, pq.ask_price⟩
    | _, _, _, _ => none
  | _, _ => none

def firstHit : List AlpacaStrikeEntry → Option AlpacaHit
  | [] => none
  | e :: es =>
    match entryHit e with
    | some h => some h
    | none => firstHit es

def strikeDist (price : ℚ) (e : AlpacaStrikeEntry) : ℚ := |e.strike - price|

/-- Walk the strikes ranked by absolute distance from the underlying price
and return the first hit (`for strike in sorted_strikes: ... break`). -/
def alpacaScanStrikes (price : ℚ) (strikes : List AlpacaStrikeEntry) : Option AlpacaHit :=
  firstHit (sortOn (strikeDist price) strikes)

/-- `None not in (call_bid, call_ask, put_bid, put_ask)` and the straddle
mid-price sum. -/
def straddleOfHit (h : AlpacaHit) : Option ℚ :=
  match h.callBid, h.callAsk, h.putBid, h.putAsk with
  | some cb, some ca, some pb, some pa => some ((cb + ca) / 2 + (pb + pa) / 2)
  | _, _, _, _ => none

def lookupChain (chain : List (ℤ × List AlpacaStrikeEntry)) (d : ℤ) :
    Option (List AlpacaStrikeEntry) :=
  (chain.find? (fun p => p.1 == d)).map (fun p => p.2)

/-- One Alpaca expiration iteration: skip when the chain has no strikes or
no strike passes validity; otherwise record the ATM sample and, only when
the straddle is still unset, attempt the straddle from this hit's quotes. -/
def alpacaStep (price : ℚ) (chain : List (ℤ × List AlpacaStrikeEntry))
    (st : List (ℤ × ℚ) × Option ℚ) (exp : ℤ) : List (ℤ × ℚ) × Option ℚ :=
  match lookupChain chain exp with
  | none => st
  | some strikes =>
    if strikes.isEmpty then st
    else
      match alpacaScanStrikes price strikes with
      | none => st
      | some hit =>
        (st.1 ++ [(exp, hit.avgIv)],
          match st.2 with
          | some s => some s
          | none => straddleOfHit hit)

def alpacaSampleAll (price : ℚ) (chain : List (ℤ × List AlpacaStrikeEntry))
    (exps : List ℤ) : List (ℤ × ℚ) × Option ℚ :=
  exps.foldl (alpacaStep price chain) ([], none)

/-- The per-expiration hit of the Alpaca loop, `none` when the expiration
is skipped (missing chain entry, empty strikes, or no valid strike). -/
def attemptHit (price : ℚ) (chain : List (ℤ × List AlpacaStrikeEntry)) (e : ℤ) :
    Option AlpacaHit :=
  match lookupChain chain e with
  | none => none
  | some strikes =>
    if strikes.isEmpty then none else alpacaScanStrikes price strikes

def alpacaStraddleSpec (price : ℚ) (chain : List (ℤ × List AlpacaStrikeEntry))
    (exps : List ℤ) : Option ℚ :=
  exps.findSome? (fun e => (attemptHit price chain e).bind straddleOfHit)

structure YContract where
  strike : ℚ
  iv : ℚ
  bid : Option ℚ
  ask : Option ℚ
deriving DecidableEq

structure YahooChain where
  calls : List YContract
  puts : List YContract
deriving DecidableEq

/-- pandas `idxmin`: the first element attaining the minimal key. -/
def firstMinBy (f : α → ℚ) : List α → Option α
  | [] => none
  | x :: xs => some (xs.foldl (fun b a => if f a < f b then a else b) x)

/-- The Yahoo per-expiration selection: nearest call strike and nearest put
strike are located independently in the two tables (no validity walk). -/
def yahooPick (price : ℚ) (ch : YahooChain) : Option (YContract × YContract) :=
  if ch.calls.isEmpty ∨ ch.puts.isEmpty then none
  else
    match firstMinBy (fun c => |c.strike - price|) ch.calls,
        firstMinBy (fun p => |p.strike - price|) ch.puts with
    | some c, some p => some (c, p)
    | _, _ => none

def yahooStraddle (c p : YContract) : Option ℚ :=
  match
    (match c.bid, c.ask with
     | some b, some a => some ((b + a) / 2)
     | _, _ => none),
    (match p.bid, p.ask with
     | some b, some a => some ((b + a) / 2)
     | _, _ => none) with
  | some cm, some pm => some (cm + pm)
  | _, _ => none

/-- One Yahoo expiration iteration with the `i == 0` straddle guard; the
counter advances only on non-skipped expirations. -/
def yahooStep (price : ℚ) (st : List (ℤ × ℚ) × Option ℚ × ℕ) (ec : ℤ × YahooChain) :
    List (ℤ × ℚ) × Option ℚ × ℕ :=
  match yahooPick price ec.2 with
  | none => st
  | some (c, p) =>
    (st.1 ++ [(ec.1, (c.iv + p.iv) / 2)],
      (if st.2.2 = 0 then yahooStraddle c p else st.2.1),
      st.2.2 + 1)

def yahooSampleAll (price : ℚ) (l : List (ℤ × YahooChain)) :
    List (ℤ × ℚ) × Option ℚ × ℕ :=
  l.foldl (yahooStep price) ([], none, 0)

/-! ### Screening engine (`compute_recommendation`) -/

inductive ScreenErr
  | noOptions
  | insufficientHorizon
  | noAtmIv
  | degenerateTermStructure
  | insufficientPriceHistory
deriving DecidableEq

structure ScreenResult where
  avg_volume : Bool
  iv30_rv30 : Bool
  ts_slope_0_45 : Bool
  expected_move : Option ℚ
deriving DecidableEq

/-- A daily bar with volume, as used by the screening pipeline. -/
structure PriceBarQ where
  op : ℚ
  hi : ℚ
  lo : ℚ
  cl : ℚ
  vol : ℚ
deriving DecidableEq

def toBar (b : PriceBarQ) : PriceBar := ⟨(b.op : ℝ), (b.hi : ℝ), (b.lo : ℝ), (b.cl : ℝ)⟩

def toBars (bars : List PriceBarQ) : List PriceBar := bars.map toBar

structure YahooData where
  price : ℚ
  options : List ℤ
  chains : ℤ → YahooChain
  bars : List PriceBarQ

structure AlpacaData where
  price : ℚ
  chain : List (ℤ × List AlpacaStrikeEntry)
  bars : List PriceBarQ

/-- `iv30_rv30 >= 1.25` with float `NaN` (undefined realized volatility or
undefined spline value) comparing as false. -/
noncomputable def ivRvFlag (iv30 : Option ℚ) (rv : Option ℝ) : Bool :=
  match iv30, rv with
  | some q, some r => by classical exact if ((q : ℝ) / r ≥ 1.25) then true else false
  | _, _ => false

/-- `ts_slope_0_45 <= -0.00406` with `NaN` comparing as false. -/
def slopeFlag (ts45 tsd0 : Option ℚ) (d0 : ℚ) : Bool :=
  match ts45, tsd0 with
  | some a, some b => decide ((a - b) / (45 - d0) ≤ -(203 / 50000 : ℚ))
  | _, _ => false

/-- Python `round(x, 2)` (ties modelled as round-half-away-from-even-free:
exact tie inputs do not occur in the verified statements). -/
def round2 (q : ℚ) : ℚ := ((round (q * 100) : ℤ) : ℚ) / 100

/-- `str(round(straddle / underlying_price * 100, 2)) + "%" if straddle else None`:
a missing or zero (falsy) straddle yields no expected move. -/
def expectedMove (straddle : Option ℚ) (price : ℚ) : Option ℚ :=
  match straddle with
  | some s => if s = 0 then none else some (round2 (s / price * 100))
  | none => none

/-- 30-day rolling mean of daily volume at the latest date (defined only
when at least 30 bars exist; the caller checks that). -/
def avgVol30 (bars : List PriceBarQ) : ℚ :=
  ((bars.drop (bars.length - 30)).map (fun b => b.vol)).sum / 30

def dteOf (today : ℤ) (atm : List (ℤ × ℚ)) : List ℚ :=
  atm.map (fun p => ((p.1 - today : ℤ) : ℚ))

def dte0 (today : ℤ) (atm : List (ℤ × ℚ)) : ℚ :=
  (((atm.headD (0, 0)).1 - today : ℤ) : ℚ)

/-- The Yahoo-only branch of `compute_recommendation` (lines 292-363): the
secondary pipeline run entirely from Yahoo data, with `atm_iv` and
`straddle` reset.  The `InsufficientPriceHistory` failure is the
`IndexError` raised by `rolling(30).mean().dropna().iloc[-1]` on fewer
than 30 bars, caught by the outer handler as an error return. -/
noncomputable def yahooPipeline (today : ℤ) (y : YahooData) : Except ScreenErr ScreenResult :=
  if y.options.isEmpty then .error .noOptions
  else
    match filter_dates today y.options with
    | .error _ => .error .insufficientHorizon
    | .ok exps =>
      match yahooSampleAll y.price (exps.map (fun e => (e, y.chains e))) with
      | (atm, straddle, _) =>
        if atm.isEmpty then .error .noAtmIv
        else
          match build_term_structure (dteOf today atm) (atm.map (fun p => p.2)) with
          | .error _ => .error .degenerateTermStructure
          | .ok ts =>
            if y.bars.length < 30 then .error .insufficientPriceHistory
            else
              .ok ⟨decide (avgVol30 y.bars ≥ 1500000),
                ivRvFlag (term_spline ts 30) (yang_zhang (toBars y.bars) 30 252),
                slopeFlag (term_spline ts 45) (term_spline ts (dte0 today atm)) (dte0 today atm),
                expectedMove straddle y.price⟩

/-- `compute_recommendation`, dual-source: try the Alpaca chain first; the
Alpaca data is used only when its sampling yields at least 2 expirations
with ATM implied volatility AND at least 30 Alpaca daily bars are
available AND the Yahoo volume history has at least 30 bars (otherwise the
whole run falls through to the Yahoo pipeline, resetting `atm_iv` and
`straddle`).  A filter failure on the Alpaca expirations returns an error
directly (line 136-138), without fallback. -/
noncomputable def compute_recommendation : ℤ → Option AlpacaData → YahooData →
    Except ScreenErr ScreenResult
  | today, none, y => yahooPipeline today y
  | today, some a, y =>
    if a.chain.isEmpty then yahooPipeline today y
    else
      match filter_dates today (a.chain.map (fun p => p.1)) with
      | .error _ => .error .insufficientHorizon
      | .ok exps =>
        match alpacaSampleAll a.price a.chain exps with
        | (atm, straddle) =>
          if atm.length < 2 then yahooPipeline today y
          else
            match build_term_structure (dteOf today atm) (atm.map (fun p => p.2)) with
            | .error _ => yahooPipeline today y
            | .ok ts =>
              if a.bars.length < 30 then yahooPipeline today y
              else if y.bars.length < 30 then yahooPipeline today y
              else
                .ok ⟨decide (avgVol30 y.bars ≥ 1500000),
                  ivRvFlag (term_spline ts 30) (yang_zhang (toBars a.bars) 30 252),
                  slopeFlag (term_spline ts 45) (term_spline ts (dte0 today atm)) (dte0 today atm),
                  expectedMove straddle a.price⟩

/-! ### Concrete demonstration data for counterexamples and witnesses -/

/-- First expiration's only strike: both IVs valid (sample succeeds) but
the call quote lacks a bid, so the straddle attempt fails here. -/
def demoEntryNoBid : AlpacaStrikeEntry :=
  ⟨100, some (some ⟨some ⟨none, some 3⟩, some 2⟩),
    some (some ⟨some ⟨some 3, some 5⟩, some 2⟩)⟩

/-- Second expiration's only strike: fully quoted on both sides. -/
def demoEntryFull : AlpacaStrikeEntry :=
  ⟨100, some (some ⟨some ⟨some 3, some 5⟩, some 2⟩),
    some (some ⟨some ⟨some 3, some 5⟩, some 2⟩)⟩

def demoChain : List (ℤ × List AlpacaStrikeEntry) :=
  [(50, [demoEntryNoBid]), (60, [demoEntryFull])]

/-- A Yahoo chain whose call and put tables have no strike in common. -/
def demoYahooChain : YahooChain := ⟨[⟨100, 2, none, none⟩], [⟨105, 4, none, none⟩]⟩

def demoYahoo : YahooData := ⟨1, [], fun _ => ⟨[], []⟩, []⟩

/-- An Alpaca data set with one expiration and no strikes: sampling yields
zero expirations, forcing the fallback. -/
def demoAlpaca : AlpacaData := ⟨100, [(50, [])], []⟩

/-! ### Helper lemmas -/

theorem ssLeft_le_length [LinearOrder α] (c : α) (xs : List α) :
    ssLeft c xs ≤ xs.length := by
  induction xs with
  | nil => simp [ssLeft]
  | cons x xs ih =>
    simp only [ssLeft, List.length_cons]
    split
    · omega
    · omega

theorem getD_eq_get (xs : List α) (d : α) (i : ℕ) (h : i < xs.length) :
    xs.getD i d = xs.get ⟨i, h⟩ := by
  simp [List.getD_eq_getElem?_getD, List.getElem?_eq_getElem h]

theorem getD_lt_of_lt_ssLeft [LinearOrder α] (c d : α) (xs : List α) (j : ℕ)
    (h : j < ssLeft c xs) : xs.getD j d < c := by
  induction xs generalizing j with
  | nil => simp [ssLeft] at h
  | cons x xs ih =>
    simp only [ssLeft] at h
    by_cases hc : c ≤ x
    · simp [hc] at h
    · rw [if_neg hc] at h
      cases j with
      | zero => simpa using lt_of_not_le hc
      | succ j => exact ih j (by omega)

theorem le_getD_ssLeft [LinearOrder α] (c d : α) (xs : List α)
    (h : ssLeft c xs < xs.length) : c ≤ xs.getD (ssLeft c xs) d := by
  induction xs with
  | nil => simp [ssLeft] at h
  | cons x xs ih =>
    by_cases hc : c ≤ x
    · simp [ssLeft, hc]
    · simp only [ssLeft, if_neg hc] at h ⊢
      exact ih (by simpa using Nat.lt_of_succ_lt_succ h)

theorem ssLeft_eq_length_iff [LinearOrder α] (c : α) (xs : List α) :
    ssLeft c xs = xs.length ↔ ∀ x ∈ xs, x < c := by
  induction xs with
  | nil => simp [ssLeft]
  | cons x xs ih =>
    simp only [ssLeft, List.length_cons]
    by_cases hc : c ≤ x
    · rw [if_pos hc]
      constructor
      · intro h
        omega
      · intro h
        exact absurd (h x (by simp)) (not_lt_of_le hc)
    · simp only [if_neg hc]
      constructor
      · intro h y hy
        rcases List.mem_cons.mp hy with rfl | hy
        · exact lt_of_not_le hc
        · exact (ih.mp (by omega)) y hy
      · intro h
        have := ih.mpr (fun y hy => h y (List.mem_cons_of_mem _ hy))
        omega

theorem ssLeft_eq_of [LinearOrder α] (c d : α) (xs : List α) (p : ℕ)
    (hp : p < xs.length) (hbefore : ∀ j, j < p → xs.getD j d < c)
    (hat : c ≤ xs.getD p d) : ssLeft c xs = p := by
  induction xs generalizing p with
  | nil => simp at hp
  | cons x xs ih =>
    cases p with
    | zero =>
      simp only [List.getD_cons_zero] at hat
      simp [ssLeft, hat]
    | succ p =>
      have hx : x < c := by simpa using hbefore 0 (Nat.succ_pos p)
      simp only [ssLeft, if_neg (not_le_of_lt hx)]
      have := ih p (by simpa using Nat.lt_of_succ_lt_succ hp)
        (fun j hj => by simpa using hbefore (j + 1) (by omega))
        (by simpa using hat)
      omega

theorem sortOn_perm [LinearOrder κ] (f : α → κ) (l : List α) :
    (sortOn f l).Perm l := by
  have h1 : ((l.map (fun a => (f a, a))).insertionSort keyLe).Perm
      (l.map (fun a => (f a, a))) := List.perm_insertionSort _ _
  have h2 := h1.map (fun p : κ × α => p.2)
  simpa [sortOn, List.map_map, Function.comp_def] using h2

theorem sortOn_mem_key [LinearOrder κ] (f : α → κ) (l : List α) (p : κ × α)
    (hp : p ∈ (l.map (fun a => (f a, a))).insertionSort keyLe) : p.1 = f p.2 := by
  have := (List.perm_insertionSort keyLe (l.map (fun a => (f a, a)))).mem_iff.mp hp
  obtain ⟨a, _, rfl⟩ := List.mem_map.mp this
  rfl

theorem sortOn_pairwise [LinearOrder κ] (f : α → κ) (l : List α) :
    List.Pairwise (fun a b => f a ≤ f b) (sortOn f l) := by
  have h1 : List.Sorted keyLe ((l.map (fun a => (f a, a))).insertionSort keyLe) :=
    List.sorted_insertionSort _ _
  have h2 : List.Pairwise (fun p q : κ × α => f p.2 ≤ f q.2)
      ((l.map (fun a => (f a, a))).insertionSort keyLe) := by
    refine h1.imp_of_mem ?_
    intro a b ha hb hab
    rw [← sortOn_mem_key f l a ha, ← sortOn_mem_key f l b hb]
    exact hab
  exact List.pairwise_map.mpr h2

theorem pairwise_getD_rel {R : α → α → Prop} (xs : List α) (h : List.Pairwise R xs)
    (i j : ℕ) (hij : i < j) (hj : j < xs.length) (d : α) :
    R (xs.getD i d) (xs.getD j d) := by
  rw [getD_eq_get xs d i (lt_trans hij hj), getD_eq_get xs d j hj]
  exact List.pairwise_iff_get.mp h ⟨i, lt_trans hij hj⟩ ⟨j, hj⟩ hij

theorem sorted_getD_le [Preorder α] (xs : List α) (d : α) (h : List.Pairwise (· ≤ ·) xs)
    (i j : ℕ) (hij : i ≤ j) (hj : j < xs.length) : xs.getD i d ≤ xs.getD j d := by
  rcases Nat.lt_or_ge i j with hlt | hge
  · exact pairwise_getD_rel xs h i j hlt hj d
  · have : i = j := by omega
    subst this
    exact le_refl _

theorem headD_eq_getD (xs : List α) (d : α) (h : xs ≠ []) :
    xs.headD d = xs.getD 0 d := by
  cases xs with
  | nil => exact absurd rfl h
  | cons a l => rfl

theorem getLastD_eq_getD (xs : List α) (d : α) :
    xs.getLastD d = xs.getD (xs.length - 1) d := by
  rw [List.getLastD_eq_getLast?, List.getLast?_eq_getElem?, List.getD_eq_getElem?_getD]

theorem getD_take (l : List α) (n j : ℕ) (d : α) (h : j < n) :
    (l.take n).getD j d = l.getD j d := by
  induction l generalizing n j with
  | nil => simp
  | cons a t ih =>
    cases n with
    | zero => omega
    | succ m =>
      cases j with
      | zero => rfl
      | succ k => simpa using ih m k (by omega)

theorem getD_drop (l : List α) (n j : ℕ) (d : α) :
    (l.drop n).getD j d = l.getD (n + j) d := by
  induction l generalizing n with
  | nil => simp
  | cons a t ih =>
    cases n with
    | zero => simp
    | succ m =>
      have heq : m + 1 + j = (m + j) + 1 := by omega
      rw [heq]
      simp only [List.drop_succ_cons, List.getD_cons_succ]
      exact ih m

theorem getD_mem (l : List α) (j : ℕ) (d : α) (h : j < l.length) : l.getD j d ∈ l := by
  rw [getD_eq_get _ _ _ h]
  exact List.get_mem l j h

theorem mem_iff_getD (l : List α) (x d : α) :
    x ∈ l ↔ ∃ j, j < l.length ∧ l.getD j d = x := by
  constructor
  · intro hx
    obtain ⟨⟨j, hj⟩, hget⟩ := List.mem_iff_get.mp hx
    exact ⟨j, hj, by rw [getD_eq_get _ _ _ hj]; exact hget⟩
  · rintro ⟨j, hj, rfl⟩
    exact getD_mem l j d hj

theorem mem_take_iff_getD (l : List α) (n : ℕ) (x d : α) :
    x ∈ l.take n ↔ ∃ j, j < n ∧ j < l.length ∧ l.getD j d = x := by
  rw [mem_iff_getD (l.take n) x d]
  constructor
  · rintro ⟨j, hj, hx⟩
    rw [List.length_take] at hj
    refine ⟨j, by omega, by omega, ?_⟩
    rw [← getD_take l n j d (by omega)]
    exact hx
  · rintro ⟨j, h1, h2, hx⟩
    refine ⟨j, by rw [List.length_take]; omega, ?_⟩
    rw [getD_take l n j d h1]
    exact hx

theorem getD_default_eq (l : List α) (j : ℕ) (d1 d2 : α) (h : j < l.length) :
    l.getD j d1 = l.getD j d2 := by
  rw [getD_eq_get _ _ _ h, getD_eq_get _ _ _ h]

theorem build_ok_elim (days ivs : List ℚ) (ts : TermStruct)
    (hok : build_term_structure days ivs = .ok ts) :
    2 ≤ days.dedup.length ∧
      ts.xs = (sortOn (fun p => p.1) (days.zip ivs)).map (fun p => p.1) ∧
      ts.ys = (sortOn (fun p => p.1) (days.zip ivs)).map (fun p => p.2) := by
  unfold build_term_structure at hok
  by_cases h : days.dedup.length < 2
  · rw [if_pos h] at hok
    exact absurd hok (by simp)
  · rw [if_neg h] at hok
    obtain rfl : (⟨(sortOn (fun p => p.1) (days.zip ivs)).map (fun p => p.1),
        (sortOn (fun p => p.1) (days.zip ivs)).map (fun p => p.2)⟩ : TermStruct) = ts :=
      Except.ok.inj hok
    exact ⟨by omega, rfl, rfl⟩

theorem build_xs_sorted (days ivs : List ℚ) (ts : TermStruct)
    (hok : build_term_structure days ivs = .ok ts) :
    List.Pairwise (· ≤ ·) ts.xs := by
  obtain ⟨-, hxs, -⟩ := build_ok_elim days ivs ts hok
  rw [hxs]
  exact List.pairwise_map.mpr (sortOn_pairwise (fun p : ℚ × ℚ => p.1) (days.zip ivs))

theorem build_ys_len (days ivs : List ℚ) (ts : TermStruct)
    (hok : build_term_structure days ivs = .ok ts) :
    ts.ys.length = ts.xs.length := by
  obtain ⟨-, hxs, hys⟩ := build_ok_elim days ivs ts hok
  rw [hxs, hys]
  simp

theorem build_xs_perm (days ivs : List ℚ) (ts : TermStruct)
    (hok : build_term_structure days ivs = .ok ts)
    (hlen : days.length = ivs.length) : ts.xs.Perm days := by
  obtain ⟨-, hxs, -⟩ := build_ok_elim days ivs ts hok
  rw [hxs]
  have hperm := (sortOn_perm (fun p : ℚ × ℚ => p.1) (days.zip ivs)).map
    (fun p : ℚ × ℚ => p.1)
  have hfst : (days.zip ivs).map (fun p => p.1) = days := by
    simpa using List.map_fst_zip days ivs (le_of_eq hlen)
  rwa [hfst] at hperm

theorem build_xs_strict (days ivs : List ℚ) (ts : TermStruct)
    (hok : build_term_structure days ivs = .ok ts)
    (hlen : days.length = ivs.length) (hnd : days.Nodup) :
    List.Pairwise (· < ·) ts.xs := by
  have hperm := build_xs_perm days ivs ts hok hlen
  have hnd2 : ts.xs.Nodup := hperm.nodup_iff.mpr hnd
  have hle := build_xs_sorted days ivs ts hok
  exact (hle.and hnd2).imp (fun h => lt_of_le_of_ne h.1 h.2)

theorem clipIdx_eq (xs : List ℚ) (d : ℚ) (p : ℕ) (hss : ssLeft d xs = p)
    (h1 : 1 ≤ p) (h2 : p ≤ xs.length - 1) : clipIdx xs d = p := by
  unfold clipIdx
  rw [hss]
  omega

theorem clipIdx_of_zero (xs : List ℚ) (d : ℚ) (hss : ssLeft d xs = 0)
    (hn : 2 ≤ xs.length) : clipIdx xs d = 1 := by
  unfold clipIdx
  rw [hss]
  omega

theorem term_spline_bracket (ts : TermStruct) (i : ℕ) (d : ℚ)
    (hsort : List.Pairwise (· < ·) ts.xs)
    (hi : i + 1 < ts.xs.length)
    (h1 : ts.xs.getD i 0 ≤ d) (h2 : d ≤ ts.xs.getD (i + 1) 0) :
    term_spline ts d = some (ts.ys.getD i 0 +
      (ts.ys.getD (i + 1) 0 - ts.ys.getD i 0) /
        (ts.xs.getD (i + 1) 0 - ts.xs.getD i 0) * (d - ts.xs.getD i 0)) := by
  have hle : List.Pairwise (· ≤ ·) ts.xs := hsort.imp le_of_lt
  have hne : ts.xs ≠ [] := by
    intro h
    rw [h] at hi
    simp at hi
  have hstrict : ts.xs.getD i 0 < ts.xs.getD (i + 1) 0 :=
    pairwise_getD_rel ts.xs hsort i (i + 1) (by omega) hi 0
  have hguard1 : ¬ d < ts.xs.headD 0 := by
    rw [headD_eq_getD _ _ hne]
    push_neg
    exact le_trans (sorted_getD_le _ 0 hle 0 i (by omega) (by omega)) h1
  have hguard2 : ¬ d > ts.xs.getLastD 0 := by
    rw [getLastD_eq_getD]
    push_neg
    exact le_trans h2 (sorted_getD_le _ 0 hle (i + 1) (ts.xs.length - 1) (by omega) (by omega))
  unfold term_spline
  rw [if_neg hguard1, if_neg hguard2]
  rcases lt_or_eq_of_le h1 with hgt | heq
  · have hss : ssLeft d ts.xs = i + 1 :=
      ssLeft_eq_of d 0 ts.xs (i + 1) hi
        (fun j hj => lt_of_le_of_lt (sorted_getD_le _ 0 hle j i (by omega) (by omega)) hgt)
        h2
    have hclip : clipIdx ts.xs d = i + 1 := clipIdx_eq _ _ _ hss (by omega) (by omega)
    unfold callLinear
    rw [hclip]
    simp only [Nat.add_sub_cancel]
    rw [if_neg (ne_of_gt hstrict)]
  · rcases Nat.eq_zero_or_pos i with rfl | hipos
    · have hss : ssLeft d ts.xs = 0 :=
        ssLeft_eq_of d 0 ts.xs 0 (by omega) (fun j hj => absurd hj (Nat.not_lt_zero j)) heq.ge
      have hclip : clipIdx ts.xs d = 1 := clipIdx_of_zero _ _ hss (by omega)
      unfold callLinear
      rw [hclip]
      simp only [Nat.sub_self]
      rw [if_neg (ne_of_gt hstrict)]
    · have hss : ssLeft d ts.xs = i :=
        ssLeft_eq_of d 0 ts.xs i (by omega)
          (fun j hj => heq ▸ pairwise_getD_rel ts.xs hsort j i hj (by omega) 0)
          heq.ge
      have hclip : clipIdx ts.xs d = i := clipIdx_eq _ _ _ hss (by omega) (by omega)
      have hprev : ts.xs.getD (i - 1) 0 < ts.xs.getD i 0 :=
        pairwise_getD_rel ts.xs hsort (i - 1) i (by omega) (by omega) 0
      unfold callLinear
      rw [hclip]
      rw [if_neg (ne_of_gt hprev)]
      subst heq
      have hd1 : ts.xs.getD i 0 - ts.xs.getD (i - 1) 0 ≠ 0 := sub_ne_zero.mpr (ne_of_gt hprev)
      have hd2 : ts.xs.getD (i + 1) 0 - ts.xs.getD i 0 ≠ 0 := sub_ne_zero.mpr (ne_of_gt hstrict)
      congr 1
      rw [div_mul_cancel₀ _ hd1, sub_self, mul_zero, add_zero]
      ring

theorem term_spline_at_sample (ts : TermStruct) (p : ℕ)
    (hle : List.Pairwise (· ≤ ·) ts.xs)
    (hp1 : 1 ≤ p) (hpn : p < ts.xs.length)
    (hlt : ts.xs.getD (p - 1) 0 < ts.xs.getD p 0) :
    term_spline ts (ts.xs.getD p 0) = some (ts.ys.getD p 0) := by
  have hne : ts.xs ≠ [] := by
    intro h
    rw [h] at hpn
    simp at hpn
  have hguard1 : ¬ ts.xs.getD p 0 < ts.xs.headD 0 := by
    rw [headD_eq_getD _ _ hne]
    push_neg
    calc ts.xs.getD 0 0 ≤ ts.xs.getD (p - 1) 0 :=
          sorted_getD_le _ 0 hle 0 (p - 1) (by omega) (by omega)
      _ ≤ ts.xs.getD p 0 := le_of_lt hlt
  have hguard2 : ¬ ts.xs.getD p 0 > ts.xs.getLastD 0 := by
    rw [getLastD_eq_getD]
    push_neg
    exact sorted_getD_le _ 0 hle p (ts.xs.length - 1) (by omega) (by omega)
  have hss : ssLeft (ts.xs.getD p 0) ts.xs = p :=
    ssLeft_eq_of _ 0 ts.xs p hpn
      (fun j hj => lt_of_le_of_lt (sorted_getD_le _ 0 hle j (p - 1) (by omega) (by omega)) hlt)
      (le_refl _)
  have hclip : clipIdx ts.xs (ts.xs.getD p 0) = p := clipIdx_eq _ _ _ hss (by omega) (by omega)
  unfold term_spline callLinear
  rw [if_neg hguard1, if_neg hguard2, hclip, if_neg (ne_of_gt hlt)]
  have hd1 : ts.xs.getD p 0 - ts.xs.getD (p - 1) 0 ≠ 0 := sub_ne_zero.mpr (ne_of_gt hlt)
  congr 1
  rw [div_mul_cancel₀ _ hd1]
  ring

/-- Full behavioural characterisation of `filterSorted` on a sorted,
duplicate-free date list; `filter_dates` composes it with the sort. -/
theorem filterSorted_contract (today : ℤ) (s : List ℤ)
    (hsorted : List.Pairwise (· ≤ ·) s) (hnds : s.Nodup) :
    (filterSorted today s = .error .insufficientHorizon ↔ ∀ x ∈ s, x < today + 45) ∧
    (∀ l, filterSorted today s = .ok l →
      List.Pairwise (· ≤ ·) l ∧ l ≠ [] ∧ (∀ x ∈ l, x ∈ s) ∧
      (∀ x ∈ l.dropLast, x < today + 45) ∧
      today + 45 ≤ l.getLastD 0 ∧
      (∀ x ∈ s, today + 45 ≤ x → l.getLastD 0 ≤ x) ∧
      (∀ x ∈ s, x < today + 45 → x ≠ today → x ∈ l) ∧
      ((today ∈ s ∧ ∀ x ∈ s, today ≤ x) → today ∉ l) ∧
      ((today ∈ s ∧ ¬ ∀ x ∈ s, today ≤ x) → today ∈ l)) := by
  have hile : ssLeft (today + 45) s ≤ s.length := ssLeft_le_length _ s
  constructor
  · by_cases hlt : ssLeft (today + 45) s < s.length
    · constructor
      · intro h
        unfold filterSorted at h
        rw [if_pos hlt] at h
        split at h <;> exact absurd h (by simp)
      · intro hall
        exfalso
        have := (ssLeft_eq_length_iff (today + 45) s).mpr hall
        omega
    · have hieq : ssLeft (today + 45) s = s.length := by omega
      constructor
      · intro _
        exact (ssLeft_eq_length_iff (today + 45) s).mp hieq
      · intro _
        unfold filterSorted
        rw [if_neg hlt]
  · intro l hok
    unfold filterSorted at hok
    by_cases hlt : ssLeft (today + 45) s < s.length
    swap
    · rw [if_neg hlt] at hok
      exact absurd hok (by simp)
    rw [if_pos hlt] at hok
    set i := ssLeft (today + 45) s with hidef
    set arr := s.take (i + 1) with harrdef
    have harrlen : arr.length = i + 1 := by
      rw [harrdef, List.length_take]
      omega
    have harrne : arr ≠ [] := by
      intro h
      rw [h] at harrlen
      simp at harrlen
    have harrget : ∀ j, j < i + 1 → arr.getD j 0 = s.getD j 0 :=
      fun j hj => getD_take s (i + 1) j 0 hj
    have hbefore : ∀ j, j < i → s.getD j 0 < today + 45 :=
      fun j hj => getD_lt_of_lt_ssLeft (today + 45) 0 s j hj
    have hatc : today + 45 ≤ s.getD i 0 := le_getD_ssLeft (today + 45) 0 s hlt
    have harrsorted : List.Pairwise (· ≤ ·) arr :=
      List.Pairwise.sublist (List.take_sublist _ _) hsorted
    have harrsub : ∀ x ∈ arr, x ∈ s := fun x hx => List.take_subset _ _ hx
    have hheadval : arr.headD (today + 1) = s.getD 0 0 := by
      rw [headD_eq_getD _ _ harrne, getD_default_eq arr 0 (today + 1) 0 (by omega),
        harrget 0 (by omega)]
    have harrlast : arr.getLastD 0 = s.getD i 0 := by
      rw [getLastD_eq_getD, harrlen]
      simp only [Nat.add_sub_cancel]
      exact harrget i (by omega)
    -- the last element is minimal among the dates past the cutoff
    have hminlast : ∀ x ∈ s, today + 45 ≤ x → s.getD i 0 ≤ x := by
      intro x hx hcx
      obtain ⟨j, hj, rfl⟩ := (mem_iff_getD s x 0).mp hx
      rcases Nat.lt_or_ge j i with hji | hij
      · exact absurd hcx (not_le_of_lt (hbefore j hji))
      · exact sorted_getD_le s 0 hsorted i j hij hj
    -- membership of a below-cutoff element in the full prefix
    have hmemarr : ∀ x ∈ s, x < today + 45 → x ∈ arr := by
      intro x hx hcx
      obtain ⟨j, hj, rfl⟩ := (mem_iff_getD s x 0).mp hx
      have hji : j < i := by
        rcases Nat.lt_or_ge j i with h1 | h1
        · exact h1
        · exact absurd (le_trans hatc (sorted_getD_le s 0 hsorted i j h1 hj)) (not_le_of_lt hcx)
      exact (mem_take_iff_getD s (i + 1) _ 0).mpr ⟨j, by omega, hj, rfl⟩
    split at hok
    next htoday =>
      obtain rfl : arr.drop 1 = l := Except.ok.inj hok
      have hhead0 : s.getD 0 0 = today := by rw [← hheadval, htoday]
      have hipos : 1 ≤ i := by
        by_contra h
        have hzero : i = 0 := by omega
        rw [hzero] at hatc
        rw [hhead0] at hatc
        omega
      have hlen2 : (arr.drop 1).length = i := by
        rw [List.length_drop, harrlen]
        omega
      have hgetdrop : ∀ j, (arr.drop 1).getD j 0 = arr.getD (1 + j) 0 :=
        fun j => getD_drop arr 1 j 0
      refine ⟨List.Pairwise.sublist (List.drop_sublist _ _) harrsorted, ?_, ?_, ?_, ?_, ?_, ?_, ?_, ?_⟩
      · intro h
        rw [h] at hlen2
        simp at hlen2
        omega
      · exact fun x hx => harrsub x (List.drop_subset _ _ hx)
      · intro x hx
        obtain ⟨j, hj, rfl⟩ := (mem_iff_getD (arr.drop 1).dropLast x 0).mp hx
        rw [List.length_dropLast, hlen2] at hj
        rw [List.dropLast_eq_take, getD_take _ _ _ _ (by rw [hlen2]; omega), hgetdrop j,
          harrget (1 + j) (by omega)]
        exact hbefore (1 + j) (by omega)
      · rw [getLastD_eq_getD, hlen2, hgetdrop (i - 1),
          show 1 + (i - 1) = i by omega, harrget i (by omega)]
        exact hatc
      · intro x hx hcx
        rw [getLastD_eq_getD, hlen2, hgetdrop (i - 1),
          show 1 + (i - 1) = i by omega, harrget i (by omega)]
        exact hminlast x hx hcx
      · intro x hx hcx hxt
        obtain ⟨j, hj, rfl⟩ := (mem_iff_getD s x 0).mp hx
        have hji : j < i := by
          rcases Nat.lt_or_ge j i with h1 | h1
          · exact h1
          · exact absurd (le_trans hatc (sorted_getD_le s 0 hsorted i j h1 hj))
              (not_le_of_lt hcx)
        have hjpos : 1 ≤ j := by
          by_contra h
          have : j = 0 := by omega
          rw [this] at hxt
          exact hxt hhead0
        have : s.getD j 0 = (arr.drop 1).getD (j - 1) 0 := by
          rw [hgetdrop (j - 1), show 1 + (j - 1) = j by omega, harrget j (by omega)]
        rw [this]
        exact getD_mem _ _ _ (by omega)
      · intro _
        have harrnodup : arr.Nodup := List.Nodup.sublist (List.take_sublist _ _) hnds
        obtain ⟨a, t, haeq⟩ := List.exists_cons_of_ne_nil harrne
        have hat : a = today := by
          have h1 := hheadval
          rw [haeq] at h1
          simp only [List.headD_cons] at h1
          rw [h1, hhead0]
        rw [haeq]
        simp only [List.drop_succ_cons, List.drop_zero]
        rw [haeq] at harrnodup
        rw [← hat]
        exact (List.nodup_cons.mp harrnodup).1
      · rintro ⟨htm, hnotmin⟩
        exfalso
        push_neg at hnotmin
        obtain ⟨x, hx, hxlt⟩ := hnotmin
        obtain ⟨j, hj, rfl⟩ := (mem_iff_getD s x 0).mp hx
        have : s.getD 0 0 ≤ s.getD j 0 := sorted_getD_le s 0 hsorted 0 j (by omega) hj
        omega
    next htoday =>
      obtain rfl : arr = l := Except.ok.inj hok
      refine ⟨harrsorted, harrne, harrsub, ?_, ?_, ?_, ?_, ?_, ?_⟩
      · intro x hx
        obtain ⟨j, hj, rfl⟩ := (mem_iff_getD arr.dropLast x 0).mp hx
        rw [List.length_dropLast, harrlen] at hj
        rw [List.dropLast_eq_take, getD_take _ _ _ _ (by rw [harrlen]; omega),
          harrget j (by omega)]
        exact hbefore j (by omega)
      · rw [harrlast]
        exact hatc
      · intro x hx hcx
        rw [harrlast]
        exact hminlast x hx hcx
      · intro x hx hcx _
        exact hmemarr x hx hcx
      · rintro ⟨htm, hmin⟩
        exfalso
        apply htoday
        rw [hheadval]
        obtain ⟨j, hj, hjx⟩ := (mem_iff_getD s today 0).mp htm
        have h1 : s.getD 0 0 ≤ today := by
          rw [← hjx]
          exact sorted_getD_le s 0 hsorted 0 j (by omega) hj
        have h2 : today ≤ s.getD 0 0 := hmin _ (getD_mem s 0 0 (by omega))
        omega
      · rintro ⟨htm, _⟩
        exact hmemarr today htm (by omega)

/-- C5: building a term structure from fewer than 2 distinct days-to-expiry
values is exactly the failure case: the build fails with
`degenerateTermStructure` if and only if the number of distinct
days-to-expiry values is below 2, so it never returns a usable curve in
the degenerate case. -/
theorem c5_degenerate_iff (days ivs : List ℚ) :
    build_term_structure days ivs = .error .degenerateTermStructure ↔
      days.dedup.length < 2 := by
  unfold build_term_structure
  split
  · simp_all
  · simp_all

/-- C2: term-structure query contract.  For every term structure built from
at least 2 points with pairwise-distinct days-to-expiry, a query below the
minimum sampled horizon returns the volatility at the minimum, a query
above the maximum returns the volatility at the maximum, and a query
between two bracketing samples returns their exact linear interpolation;
in particular with exactly 2 points `(d1,v1), (d2,v2)` and `d1 ≤ d ≤ d2`
the query returns `v1 + (v2-v1)*(d-d1)/(d2-d1)`. -/
theorem c2_term_query_contract :
    (∀ (days ivs : List ℚ) (ts : TermStruct), days.Nodup →
      days.length = ivs.length → 2 ≤ days.length →
      build_term_structure days ivs = .ok ts →
      (∀ d : ℚ, d < ts.xs.headD 0 → term_spline ts d = some (ts.ys.headD 0)) ∧
      (∀ d : ℚ, ts.xs.getLastD 0 < d → term_spline ts d = some (ts.ys.getLastD 0)) ∧
      (∀ (d : ℚ) (i : ℕ), i + 1 < ts.xs.length →
        ts.xs.getD i 0 ≤ d → d ≤ ts.xs.getD (i + 1) 0 →
        term_spline ts d = some (ts.ys.getD i 0 +
          (ts.ys.getD (i + 1) 0 - ts.ys.getD i 0) /
            (ts.xs.getD (i + 1) 0 - ts.xs.getD i 0) * (d - ts.xs.getD i 0)))) ∧
    (∀ (d1 v1 d2 v2 d : ℚ) (ts : TermStruct), d1 < d2 → d1 ≤ d → d ≤ d2 →
      build_term_structure [d1, d2] [v1, v2] = .ok ts →
      term_spline ts d = some (v1 + (v2 - v1) * (d - d1) / (d2 - d1))) := by
  have main : ∀ (days ivs : List ℚ) (ts : TermStruct), days.Nodup →
      days.length = ivs.length → 2 ≤ days.length →
      build_term_structure days ivs = .ok ts →
      (∀ d : ℚ, d < ts.xs.headD 0 → term_spline ts d = some (ts.ys.headD 0)) ∧
      (∀ d : ℚ, ts.xs.getLastD 0 < d → term_spline ts d = some (ts.ys.getLastD 0)) ∧
      (∀ (d : ℚ) (i : ℕ), i + 1 < ts.xs.length →
        ts.xs.getD i 0 ≤ d → d ≤ ts.xs.getD (i + 1) 0 →
        term_spline ts d = some (ts.ys.getD i 0 +
          (ts.ys.getD (i + 1) 0 - ts.ys.getD i 0) /
            (ts.xs.getD (i + 1) 0 - ts.xs.getD i 0) * (d - ts.xs.getD i 0))) := by
    intro days ivs ts hnd hlen hge hok
    have hxlen : ts.xs.length = days.length := (build_xs_perm days ivs ts hok hlen).length_eq
    have hne : ts.xs ≠ [] := by
      intro h
      rw [h] at hxlen
      simp at hxlen
      omega
    refine ⟨?_, ?_, ?_⟩
    · intro d hd
      unfold term_spline
      rw [if_pos hd]
    · intro d hd
      have hle := build_xs_sorted days ivs ts hok
      have hguard1 : ¬ d < ts.xs.headD 0 := by
        rw [headD_eq_getD _ _ hne]
        push_neg
        calc ts.xs.getD 0 0 ≤ ts.xs.getD (ts.xs.length - 1) 0 :=
              sorted_getD_le _ 0 hle 0 (ts.xs.length - 1) (by omega)
                (by have := List.length_pos.mpr hne; omega)
          _ ≤ d := by
              rw [← getLastD_eq_getD]
              exact le_of_lt hd
      unfold term_spline
      rw [if_neg hguard1, if_pos hd]
    · intro d i hi h1 h2
      exact term_spline_bracket ts i d (build_xs_strict days ivs ts hok hlen hnd) hi h1 h2
  refine ⟨main, ?_⟩
  intro d1 v1 d2 v2 d ts hlt h1 h2 hok
  have h3 := (main [d1, d2] [v1, v2] ts (by simp [ne_of_lt hlt]) (by simp) (by simp) hok).2.2
  obtain ⟨-, hxs, hys⟩ := build_ok_elim [d1, d2] [v1, v2] ts hok
  have hsort2 : ((([d1, d2].zip [v1, v2]).map
      (fun a : ℚ × ℚ => ((fun p : ℚ × ℚ => p.1) a, a))).insertionSort keyLe) =
      [(d1, (d1, v1)), (d2, (d2, v2))] := by
    show List.orderedInsert keyLe (d1, (d1, v1))
        (List.orderedInsert keyLe (d2, (d2, v2)) []) = _
    rw [List.orderedInsert_nil]
    exact List.orderedInsert_of_le keyLe [] (le_of_lt hlt)
  have hxs2 : ts.xs = [d1, d2] := by
    rw [hxs]
    unfold sortOn
    rw [hsort2]
    simp
  have hys2 : ts.ys = [v1, v2] := by
    rw [hys]
    unfold sortOn
    rw [hsort2]
    simp
  have h4 := h3 d 0 (by rw [hxs2]; simp) (by rw [hxs2]; simpa using h1)
    (by rw [hxs2]; simpa using h2)
  rw [hxs2, hys2] at h4
  simp only [List.getD_cons_zero, List.getD_cons_succ] at h4
  rw [h4]
  congr 1
  rw [div_mul_eq_mul_div]

/-- C2 witness: the two-point clause applied at the concrete build from
days `[10, 50]`, implied volatilities `[3, 5]`, queried at `45`. -/
theorem c2_witness :
    build_term_structure [10, 50] [(3 : ℚ), 5] = .ok ⟨[10, 50], [3, 5]⟩ ∧
      term_spline ⟨[10, 50], [3, 5]⟩ 45 = some (3 + (5 - 3) * (45 - 10) / (50 - 10)) := by
  have hb : build_term_structure [10, 50] [(3 : ℚ), 5] = .ok ⟨[10, 50], [3, 5]⟩ := by
    norm_num [build_term_structure, sortOn, keyLe, List.insertionSort, List.orderedInsert,
      List.dedup_cons_of_mem, List.dedup_cons_of_not_mem]
  exact ⟨hb, c2_term_query_contract.2 10 3 50 5 45 ⟨[10, 50], [3, 5]⟩
    (by norm_num) (by norm_num) (by norm_num) hb⟩

/-- C6 counterexample: building from days `[5, 10, 10]` (duplicate horizon
10) with implied volatilities `[1, 2, 4]` and querying exactly at horizon
10 returns `2` — the FIRST-sorted value at that horizon — not the
last-sorted value `4` predicted by the claim, and not the silent average
`3` either. -/
theorem c6_counterexample :
    (build_term_structure [5, 10, 10] [1, 2, 4]).map (fun ts => term_spline ts 10) =
      .ok (some 2) ∧ ((2 : ℚ) ≠ 4 ∧ (2 : ℚ) ≠ (2 + 4) / 2) := by
  have hb : build_term_structure [5, 10, 10] [1, 2, 4] = .ok ⟨[5, 10, 10], [1, 2, 4]⟩ := by
    norm_num [build_term_structure, sortOn, keyLe, List.insertionSort, List.orderedInsert,
      List.dedup_cons_of_mem, List.dedup_cons_of_not_mem]
  have hq : term_spline ⟨[5, 10, 10], [1, 2, 4]⟩ 10 = some 2 := by
    norm_num [term_spline, callLinear, clipIdx, ssLeft]
  refine ⟨?_, by norm_num, by norm_num⟩
  rw [hb]
  simp [Except.map, hq]

/-- C6 (amended): the build keeps duplicated days-to-expiry samples (no
collapsing: the curve stores as many points as the input), and a query
exactly at a sampled horizon whose first sorted occurrence is at index
`p ≥ 1` returns the implied volatility of that FIRST occurrence — so
duplicates are never silently averaged and the last-sorted duplicate is
not the one that answers the query at that horizon. -/
theorem c6_duplicates_first_value (days ivs : List ℚ) (ts : TermStruct)
    (hlen : days.length = ivs.length)
    (hok : build_term_structure days ivs = .ok ts) :
    ts.xs.length = days.length ∧
      (∀ p : ℕ, 1 ≤ p → p < ts.xs.length →
        ts.xs.getD (p - 1) 0 < ts.xs.getD p 0 →
        term_spline ts (ts.xs.getD p 0) = some (ts.ys.getD p 0)) := by
  refine ⟨(build_xs_perm days ivs ts hok hlen).length_eq, ?_⟩
  intro p hp1 hpn hlt
  exact term_spline_at_sample ts p (build_xs_sorted days ivs ts hok) hp1 hpn hlt

/-- C6 witness: the amended theorem applied at the concrete duplicate-laden
build, showing the query at horizon 10 answers with the first occurrence
value 2. -/
theorem c6_witness :
    ([(5 : ℚ), 10, 10].length = [(1 : ℚ), 2, 4].length) ∧
      build_term_structure [5, 10, 10] [1, 2, 4] = .ok ⟨[5, 10, 10], [1, 2, 4]⟩ ∧
      term_spline ⟨[5, 10, 10], [1, 2, 4]⟩ 10 = some 2 := by
  have hb : build_term_structure [5, 10, 10] [1, 2, 4] = .ok ⟨[5, 10, 10], [1, 2, 4]⟩ := by
    norm_num [build_term_structure, sortOn, keyLe, List.insertionSort, List.orderedInsert,
      List.dedup_cons_of_mem, List.dedup_cons_of_not_mem]
  refine ⟨rfl, hb, ?_⟩
  have h := (c6_duplicates_first_value [5, 10, 10] [1, 2, 4]
    ⟨[5, 10, 10], [1, 2, 4]⟩ rfl hb).2 1 (by norm_num) (by norm_num) (by norm_num)
  simpa using h

theorem head_mem_dropLast_of_sublist (a b : α) (t l : List α)
    (hsub : (a :: b :: t).Sublist l) : a ∈ l.dropLast := by
  induction l generalizing a b t with
  | nil => exact absurd (List.sublist_nil.mp hsub) (by simp)
  | cons x l ih =>
    have hlne : l ≠ [] := by
      intro h
      subst h
      cases hsub with
      | cons _ h => exact absurd (List.sublist_nil.mp h) (by simp)
      | cons₂ _ h => exact absurd (List.sublist_nil.mp h) (by simp)
    have hdl : (x :: l).dropLast = x :: l.dropLast := by
      cases l with
      | nil => exact absurd rfl hlne
      | cons y m => rfl
    cases hsub with
    | cons _ h =>
      rw [hdl]
      exact List.mem_cons_of_mem x (ih a b t h)
    | cons₂ _ h =>
      rw [hdl]
      exact List.mem_cons_self _ _

/-- C7: expiration filter contract.  On a finite set of dates (no
duplicates), the filter fails with the insufficient-horizon error exactly
when no date reaches `today + 45`; on success it returns a nonempty
ascending prefix of the input whose last element is the FIRST date at or
past the cutoff (all earlier output elements are below the cutoff and
every below-cutoff input date other than today is kept), with today
excluded exactly when it is the minimum; in particular the result is
never empty after the drop, so the drop-empty situation can only surface
as the error case. -/
theorem c7_filter_contract (today : ℤ) (dates : List ℤ) (hnd : dates.Nodup) :
    (filter_dates today dates = .error .insufficientHorizon ↔
      ∀ x ∈ dates, x < today + 45) ∧
    (∀ l, filter_dates today dates = .ok l →
      List.Pairwise (· ≤ ·) l ∧ l ≠ [] ∧ (∀ x ∈ l, x ∈ dates) ∧
      (∀ x ∈ l.dropLast, x < today + 45) ∧
      today + 45 ≤ l.getLastD 0 ∧
      (∀ x ∈ dates, today + 45 ≤ x → l.getLastD 0 ≤ x) ∧
      (∀ x ∈ dates, x < today + 45 → x ≠ today → x ∈ l) ∧
      ((today ∈ dates ∧ ∀ x ∈ dates, today ≤ x) → today ∉ l) ∧
      ((today ∈ dates ∧ ¬ ∀ x ∈ dates, today ≤ x) → today ∈ l)) := by
  have hperm : (List.insertionSort (· ≤ ·) dates).Perm dates :=
    List.perm_insertionSort _ _
  have hsorted : List.Pairwise (· ≤ ·) (List.insertionSort (· ≤ ·) dates) :=
    List.sorted_insertionSort _ _
  have hnds : (List.insertionSort (· ≤ ·) dates).Nodup := hperm.nodup_iff.mpr hnd
  obtain ⟨hA, hB⟩ := filterSorted_contract today _ hsorted hnds
  constructor
  · rw [show filter_dates today dates =
        filterSorted today (List.insertionSort (· ≤ ·) dates) from rfl, hA]
    constructor
    · intro h x hx
      exact h x (hperm.mem_iff.mpr hx)
    · intro h x hx
      exact h x (hperm.mem_iff.mp hx)
  · intro l hok
    obtain ⟨b1, b2, b3, b4, b5, b6, b7, b8, b9⟩ := hB l hok
    refine ⟨b1, b2, fun x hx => hperm.mem_iff.mp (b3 x hx), b4, b5, ?_, ?_, ?_, ?_⟩
    · intro x hx hcx
      exact b6 x (hperm.mem_iff.mpr hx) hcx
    · intro x hx h1 h2
      exact b7 x (hperm.mem_iff.mpr hx) h1 h2
    · rintro ⟨h1, h2⟩
      exact b8 ⟨hperm.mem_iff.mpr h1, fun x hx => h2 x (hperm.mem_iff.mp hx)⟩
    · rintro ⟨h1, h2⟩
      refine b9 ⟨hperm.mem_iff.mpr h1, ?_⟩
      intro hmin
      exact h2 (fun x hx => hmin x (hperm.mem_iff.mpr hx))

/-- C7 witness: the spec's own example, with `today = 0`: the dates
`[today, today+10, today+50]` filter to `[today+10, today+50]`, today's
own date being dropped. -/
theorem c7_witness :
    ([0, 10, 50] : List ℤ).Nodup ∧ filter_dates 0 [0, 10, 50] = .ok [10, 50] ∧
      (0 : ℤ) ∉ ([10, 50] : List ℤ) := by
  have hok : filter_dates 0 [0, 10, 50] = .ok [10, 50] := by decide
  refine ⟨by decide, hok, ?_⟩
  exact ((c7_filter_contract 0 [0, 10, 50] (by decide)).2 [10, 50] hok).2.2.2.2.2.2.2.1
    ⟨by decide, by decide⟩

/-- C10: the term-structure slope divisor is safe.  Whenever the slope
`(term_spline(45) - term_spline(d0)) / (45 - d0)` is computed from ATM
samples whose expiration dates form a sublist (in ascending order) of a
successful `filter_dates` output with at least 2 samples, the nearest
sampled day `d0 = dte0` is strictly below 45, so the divisor `45 - d0` is
strictly positive and never zero. -/
theorem c10_slope_divisor_positive (today : ℤ) (dates : List ℤ) (l : List ℤ)
    (atm : List (ℤ × ℚ)) (hnd : dates.Nodup)
    (hok : filter_dates today dates = .ok l)
    (hsub : (atm.map (fun p => p.1)).Sublist l) (hlen : 2 ≤ atm.length) :
    dte0 today atm < 45 ∧ 0 < (45 : ℚ) - dte0 today atm := by
  obtain ⟨p1, rest1, h1⟩ := List.exists_cons_of_ne_nil
    (show atm ≠ [] by intro h; rw [h] at hlen; simp at hlen)
  obtain ⟨p2, rest2, h2⟩ := List.exists_cons_of_ne_nil
    (show rest1 ≠ [] by intro h; rw [h1, h] at hlen; simp at hlen)
  have hmap : atm.map (fun p => p.1) =
      p1.1 :: p2.1 :: rest2.map (fun p => p.1) := by
    rw [h1, h2]
    rfl
  have hmem : p1.1 ∈ l.dropLast :=
    head_mem_dropLast_of_sublist p1.1 p2.1 (rest2.map (fun p => p.1)) l (hmap ▸ hsub)
  have hperm : (List.insertionSort (· ≤ ·) dates).Perm dates :=
    List.perm_insertionSort _ _
  have hsorted : List.Pairwise (· ≤ ·) (List.insertionSort (· ≤ ·) dates) :=
    List.sorted_insertionSort _ _
  have hnds : (List.insertionSort (· ≤ ·) dates).Nodup := hperm.nodup_iff.mpr hnd
  have hlt : p1.1 < today + 45 :=
    (((filterSorted_contract today _ hsorted hnds).2 l hok).2.2.2.1) p1.1 hmem
  have hdte : dte0 today atm = ((p1.1 - today : ℤ) : ℚ) := by
    rw [h1]
    rfl
  have hz : p1.1 - today < 45 := by omega
  constructor
  · rw [hdte]
    exact_mod_cast hz
  · rw [hdte]
    have : ((p1.1 - today : ℤ) : ℚ) < 45 := by exact_mod_cast hz
    linarith

/-- C10 witness: the divisor-positivity theorem applied at the concrete
filtered list `[10, 50]` (from dates `[10, 50]`, today `0`) with both
expirations sampled. -/
theorem c10_witness :
    filter_dates 0 [10, 50] = .ok [10, 50] ∧
      ([(10, 1), ((50 : ℤ), (2 : ℚ))].map (fun p => p.1)).Sublist [10, 50] ∧
      dte0 0 [(10, 1), (50, 2)] < 45 ∧ 0 < (45 : ℚ) - dte0 0 [(10, 1), (50, 2)] := by
  have hok : filter_dates 0 [10, 50] = .ok [10, 50] := by decide
  have hsub : ([(10, 1), ((50 : ℤ), (2 : ℚ))].map (fun p => p.1)).Sublist [10, 50] := by
    simp
  exact ⟨hok, hsub,
    c10_slope_divisor_positive 0 [10, 50] [10, 50] [(10, 1), (50, 2)]
      (by decide) hok hsub (by norm_num)⟩

theorem log_oc_sq_eq (bars : List PriceBar) (j : ℕ) (h1 : 1 ≤ j) (h2 : j < bars.length) :
    log_oc_sq bars j = some (ozTerm bars j) := by
  obtain ⟨m, rfl⟩ : ∃ m, j = m + 1 := ⟨j - 1, by omega⟩
  have hm : m < bars.length := by omega
  have hsucc : log_oc bars (m + 1) =
      some (Real.log ((bars.get ⟨m + 1, h2⟩).op / (bars.get ⟨m, hm⟩).cl)) := by
    show (match bars.get? (m + 1), bars.get? m with
      | some b, some p => some (Real.log (b.op / p.cl))
      | _, _ => none) = _
    rw [List.get?_eq_get h2, List.get?_eq_get hm]
  unfold log_oc_sq ozTerm
  rw [hsucc, getD_eq_get bars defaultBar (m + 1) h2,
    show (m + 1 - 1) = m from rfl, getD_eq_get bars defaultBar m hm]
  rfl

theorem log_cc_sq_eq (bars : List PriceBar) (j : ℕ) (h1 : 1 ≤ j) (h2 : j < bars.length) :
    log_cc_sq bars j = some (ccTerm bars j) := by
  obtain ⟨m, rfl⟩ : ∃ m, j = m + 1 := ⟨j - 1, by omega⟩
  have hm : m < bars.length := by omega
  have hsucc : log_cc bars (m + 1) =
      some (Real.log ((bars.get ⟨m + 1, h2⟩).cl / (bars.get ⟨m, hm⟩).cl)) := by
    show (match bars.get? (m + 1), bars.get? m with
      | some b, some p => some (Real.log (b.cl / p.cl))
      | _, _ => none) = _
    rw [List.get?_eq_get h2, List.get?_eq_get hm]
  unfold log_cc_sq ccTerm
  rw [hsucc, getD_eq_get bars defaultBar (m + 1) h2,
    show (m + 1 - 1) = m from rfl, getD_eq_get bars defaultBar m hm]
  rfl

theorem rsSeries_eq (bars : List PriceBar) (j : ℕ) (h2 : j < bars.length) :
    rsSeries bars j = some (rsTerm bars j) := by
  unfold rsSeries log_ho log_lo log_co rsTerm barAt
  rw [List.get?_eq_get h2, getD_eq_get bars defaultBar j h2]
  rfl

theorem rollSum_eq (w : ℕ) (s : ℕ → Option ℝ) (f : ℕ → ℝ) (i : ℕ)
    (hw : w ≤ i + 1)
    (hs : ∀ j, i + 1 - w ≤ j → j < i + 1 → s j = some (f j)) :
    rollSum w s i = some (∑ j in Finset.Ico (i + 1 - w) (i + 1), f j) := by
  have hcond : w ≤ i + 1 ∧ ∀ j ∈ Finset.Ico (i + 1 - w) (i + 1), (s j).isSome := by
    refine ⟨hw, ?_⟩
    intro j hj
    rw [Finset.mem_Ico] at hj
    rw [hs j hj.1 hj.2]
    rfl
  unfold rollSum
  rw [if_pos hcond]
  congr 1
  refine Finset.sum_congr rfl ?_
  intro j hj
  rw [Finset.mem_Ico] at hj
  rw [hs j hj.1 hj.2]
  rfl

theorem yang_zhang_short (bars : List PriceBar) (w : ℕ) (T : ℝ)
    (hw : 2 ≤ w) (hn : bars.length < w) : yang_zhang bars w T = none := by
  unfold yang_zhang yzSeries
  have hcond : ¬ ((w ≤ bars.length - 1 + 1) ∧
      ∀ j ∈ Finset.Ico (bars.length - 1 + 1 - w) (bars.length - 1 + 1),
        (log_oc_sq bars j).isSome) := by
    rintro ⟨hle, -⟩
    omega
  have ho : open_vol bars w (bars.length - 1) = none := by
    unfold open_vol rollSum
    rw [if_neg hcond]
    rfl
  rw [ho]

/-- C8 counterexample: with exactly `window = 30` bars of constant OHLC
100 — length ≥ window as the claim requires — the code returns no defined
value (float `NaN`), not the claimed 0: the first bar's overnight return
`ln(Open/prevClose)` is undefined, so the 30-wide rolling window at the
latest date is incomplete. -/
theorem c8_counterexample :
    yang_zhang (List.replicate 30 (⟨100, 100, 100, 100⟩ : PriceBar)) 30 252 = none ∧
      (List.replicate 30 (⟨100, 100, 100, 100⟩ : PriceBar)).length = 30 := by
  refine ⟨?_, by simp⟩
  unfold yang_zhang yzSeries
  have h0 : log_oc_sq (List.replicate 30 (⟨100, 100, 100, 100⟩ : PriceBar)) 0 = none := rfl
  have hcond : ¬ (((30 : ℕ) ≤ (List.replicate 30 (⟨100, 100, 100, 100⟩ : PriceBar)).length - 1 + 1) ∧
      ∀ j ∈ Finset.Ico
        ((List.replicate 30 (⟨100, 100, 100, 100⟩ : PriceBar)).length - 1 + 1 - 30)
        ((List.replicate 30 (⟨100, 100, 100, 100⟩ : PriceBar)).length - 1 + 1),
        (log_oc_sq (List.replicate 30 (⟨100, 100, 100, 100⟩ : PriceBar)) j).isSome) := by
    rintro ⟨-, hall⟩
    have h1 := hall 0 (by simp)
    rw [h0] at h1
    simp at h1
  have ho : open_vol (List.replicate 30 (⟨100, 100, 100, 100⟩ : PriceBar)) 30
      ((List.replicate 30 (⟨100, 100, 100, 100⟩ : PriceBar)).length - 1) = none := by
    unfold open_vol rollSum
    rw [if_neg hcond]
    rfl
  rw [ho]

/-- C8 (amended): for every ordered bar sequence of length at least
`window + 1` (the extra bar supplies the first window entry's previous
close) and window at least 2, the value returned at the latest date is
exactly `sqrt((O + k*C + (1-k)*R) * trading_periods)` with `O`, `C`, `R`
the `1/(window-1)`-scaled window sums of `ln(Open/prevClose)^2`,
`ln(Close/prevClose)^2` and the Rogers-Satchell terms over the last
`window` bars, and `k = 0.34/(1.34 + (window+1)/(window-1))`; and, in
particular, constant OHLC bars of length at least `window + 1` yield
realized volatility exactly 0. -/
theorem c8_yang_zhang_formula :
    (∀ (bars : List PriceBar) (w : ℕ) (T : ℝ), 2 ≤ w → 0 ≤ T → w + 1 ≤ bars.length →
      yang_zhang bars w T = some (Real.sqrt
        ((yzOvernight bars w + yzK w * yzCloseToClose bars w +
          (1 - yzK w) * yzIntraday bars w) * T))) ∧
    (∀ (c : ℝ) (w n : ℕ) (T : ℝ), 2 ≤ w → 0 ≤ T → w + 1 ≤ n →
      yang_zhang (List.replicate n (⟨c, c, c, c⟩ : PriceBar)) w T = some 0) := by
  have main : ∀ (bars : List PriceBar) (w : ℕ) (T : ℝ), 2 ≤ w → 0 ≤ T →
      w + 1 ≤ bars.length →
      yang_zhang bars w T = some (Real.sqrt
        ((yzOvernight bars w + yzK w * yzCloseToClose bars w +
          (1 - yzK w) * yzIntraday bars w) * T)) := by
    intro bars w T hw hT hn
    have hidx : bars.length - 1 + 1 = bars.length := by omega
    have ho : open_vol bars w (bars.length - 1) = some (yzOvernight bars w) := by
      unfold open_vol
      have h := rollSum_eq w (log_oc_sq bars) (ozTerm bars) (bars.length - 1) (by omega)
        (fun j hj1 hj2 => log_oc_sq_eq bars j (by omega) (by omega))
      rw [hidx] at h
      rw [h]
      rfl
    have hc : close_vol bars w (bars.length - 1) = some (yzCloseToClose bars w) := by
      unfold close_vol
      have h := rollSum_eq w (log_cc_sq bars) (ccTerm bars) (bars.length - 1) (by omega)
        (fun j hj1 hj2 => log_cc_sq_eq bars j (by omega) (by omega))
      rw [hidx] at h
      rw [h]
      rfl
    have hr : window_rs bars w (bars.length - 1) = some (yzIntraday bars w) := by
      unfold window_rs
      have h := rollSum_eq w (rsSeries bars) (rsTerm bars) (bars.length - 1) (by omega)
        (fun j hj1 hj2 => rsSeries_eq bars j (by omega))
      rw [hidx] at h
      rw [h]
      rfl
    unfold yang_zhang yzSeries
    rw [ho, hc, hr]
    show some _ = some _
    congr 1
    rw [Real.sqrt_mul' _ hT]
  refine ⟨main, ?_⟩
  intro c w n T hw hT hn
  have hlen : (List.replicate n (⟨c, c, c, c⟩ : PriceBar)).length = n := by simp
  have hget : ∀ j, j < n →
      (List.replicate n (⟨c, c, c, c⟩ : PriceBar)).getD j defaultBar =
        (⟨c, c, c, c⟩ : PriceBar) := by
    intro j hj
    rw [getD_eq_get _ _ _ (by rw [hlen]; exact hj)]
    simp
  have hlog : Real.log (c / c) = 0 := by
    rcases eq_or_ne c 0 with rfl | hc
    · simp
    · rw [div_self hc, Real.log_one]
  have hoz : yzOvernight (List.replicate n (⟨c, c, c, c⟩ : PriceBar)) w = 0 := by
    unfold yzOvernight
    rw [Finset.sum_eq_zero, zero_mul]
    intro j hj
    rw [Finset.mem_Ico, hlen] at hj
    unfold ozTerm
    rw [hget j (by omega), hget (j - 1) (by omega)]
    simp [hlog]
  have hcc : yzCloseToClose (List.replicate n (⟨c, c, c, c⟩ : PriceBar)) w = 0 := by
    unfold yzCloseToClose
    rw [Finset.sum_eq_zero, zero_mul]
    intro j hj
    rw [Finset.mem_Ico, hlen] at hj
    unfold ccTerm
    rw [hget j (by omega), hget (j - 1) (by omega)]
    simp [hlog]
  have hrs : yzIntraday (List.replicate n (⟨c, c, c, c⟩ : PriceBar)) w = 0 := by
    unfold yzIntraday
    rw [Finset.sum_eq_zero, zero_mul]
    intro j hj
    rw [Finset.mem_Ico, hlen] at hj
    unfold rsTerm
    rw [hget j (by omega)]
    simp [hlog]
  rw [main _ w T hw hT (by rw [hlen]; exact hn), hoz, hcc, hrs]
  simp

/-- C8 witness: the amended claim's constant-bar clause applied to 31
constant bars, giving realized volatility exactly 0. -/
theorem c8_witness :
    (2 ≤ 30 ∧ (0 : ℝ) ≤ 252 ∧
      30 + 1 ≤ (List.replicate 31 (⟨100, 100, 100, 100⟩ : PriceBar)).length) ∧
    yang_zhang (List.replicate 31 (⟨100, 100, 100, 100⟩ : PriceBar)) 30 252 = some 0 :=
  ⟨⟨by norm_num, by norm_num, by simp⟩,
    c8_yang_zhang_formula.2 100 30 31 252 (by norm_num) (by norm_num) (by norm_num)⟩

theorem alpacaStep_eq (price : ℚ) (chain : List (ℤ × List AlpacaStrikeEntry))
    (st : List (ℤ × ℚ) × Option ℚ) (e : ℤ) :
    alpacaStep price chain st e =
      match attemptHit price chain e with
      | none => st
      | some hit =>
        (st.1 ++ [(e, hit.avgIv)],
          match st.2 with
          | some s => some s
          | none => straddleOfHit hit) := by
  unfold alpacaStep attemptHit
  cases hl : lookupChain chain e with
  | none => rfl
  | some strikes =>
    by_cases he : strikes.isEmpty
    · simp [he]
    · simp only [Bool.not_eq_true] at he
      simp [he]

theorem alpacaFold_straddle (price : ℚ) (chain : List (ℤ × List AlpacaStrikeEntry))
    (exps : List ℤ) :
    ∀ st : List (ℤ × ℚ) × Option ℚ,
      (exps.foldl (alpacaStep price chain) st).2 =
        (match st.2 with
        | some s => some s
        | none => alpacaStraddleSpec price chain exps) := by
  induction exps with
  | nil =>
    intro st
    cases h : st.2 <;> simp [alpacaStraddleSpec, h]
  | cons e es ih =>
    intro st
    rw [List.foldl_cons, ih, alpacaStep_eq]
    unfold alpacaStraddleSpec
    rw [List.findSome?_cons]
    cases ha : attemptHit price chain e with
    | none =>
      cases h : st.2 <;> simp [alpacaStraddleSpec, h]
    | some hit =>
      cases h : st.2 with
      | some s => simp [h]
      | none =>
        simp only [h, Option.some_bind]
        cases hs : straddleOfHit hit <;> simp [alpacaStraddleSpec, hs]

theorem yahooStep_none (price : ℚ) (st : List (ℤ × ℚ) × Option ℚ × ℕ)
    (ec : ℤ × YahooChain) (hp : yahooPick price ec.2 = none) :
    yahooStep price st ec = st := by
  unfold yahooStep
  rw [hp]

theorem yahooStep_some (price : ℚ) (st : List (ℤ × ℚ) × Option ℚ × ℕ)
    (ec : ℤ × YahooChain) (c p : YContract) (hp : yahooPick price ec.2 = some (c, p)) :
    yahooStep price st ec =
      (st.1 ++ [(ec.1, (c.iv + p.iv) / 2)],
        (if st.2.2 = 0 then yahooStraddle c p else st.2.1), st.2.2 + 1) := by
  unfold yahooStep
  rw [hp]

theorem yahooFold_frozen (price : ℚ) (l : List (ℤ × YahooChain)) :
    ∀ st : List (ℤ × ℚ) × Option ℚ × ℕ, st.2.2 ≠ 0 →
      (l.foldl (yahooStep price) st).2.1 = st.2.1 := by
  induction l with
  | nil =>
    intro st h
    rfl
  | cons ec es ih =>
    intro st h
    rw [List.foldl_cons]
    cases hp : yahooPick price ec.2 with
    | none =>
      rw [yahooStep_none price st ec hp]
      exact ih st h
    | some cp =>
      rcases cp with ⟨c, p⟩
      rw [yahooStep_some price st ec c p hp, if_neg h]
      exact ih _ (by simp)

theorem yahooFold_straddle (price : ℚ) (l : List (ℤ × YahooChain)) :
    ∀ atm0 : List (ℤ × ℚ),
      (l.foldl (yahooStep price) (atm0, none, 0)).2.1 =
        (match l.find? (fun ec => (yahooPick price ec.2).isSome) with
        | none => none
        | some ec => (yahooPick price ec.2).bind (fun cp => yahooStraddle cp.1 cp.2)) := by
  induction l with
  | nil =>
    intro atm0
    rfl
  | cons ec es ih =>
    intro atm0
    rw [List.foldl_cons]
    cases hp : yahooPick price ec.2 with
    | none =>
      rw [yahooStep_none price _ ec hp, ih atm0]
      have hfind : ((ec :: es).find? (fun x => (yahooPick price x.2).isSome)) =
          es.find? (fun x => (yahooPick price x.2).isSome) :=
        List.find?_cons_of_neg _ (by simp [hp])
      rw [hfind]
    | some cp =>
      rcases cp with ⟨c, p⟩
      rw [yahooStep_some price _ ec c p hp,
        if_pos (show ((atm0, none, (0 : ℕ)) :
          List (ℤ × ℚ) × Option ℚ × ℕ).2.2 = 0 from rfl)]
      rw [yahooFold_frozen price es _ (by simp)]
      have hfind : ((ec :: es).find? (fun x => (yahooPick price x.2).isSome)) = some ec :=
        List.find?_cons_of_pos _ (by simp [hp])
      rw [hfind]
      show yahooStraddle c p = (yahooPick price ec.2).bind fun cp => yahooStraddle cp.1 cp.2
      rw [hp]
      rfl

theorem firstHit_eq_some (l : List AlpacaStrikeEntry) (h : AlpacaHit)
    (hh : firstHit l = some h) :
    ∃ l1 e l2, l = l1 ++ e :: l2 ∧ (∀ x ∈ l1, entryHit x = none) ∧
      entryHit e = some h := by
  induction l with
  | nil => simp [firstHit] at hh
  | cons e es ih =>
    unfold firstHit at hh
    cases he : entryHit e with
    | some h2 =>
      rw [he] at hh
      refine ⟨[], e, es, rfl, by simp, ?_⟩
      rw [he]
      exact hh
    | none =>
      rw [he] at hh
      obtain ⟨l1, e2, l2, heq, hall, hhit⟩ := ih hh
      refine ⟨e :: l1, e2, l2, by rw [heq]; rfl, ?_, hhit⟩
      intro x hx
      rcases List.mem_cons.mp hx with rfl | hx
      · exact he
      · exact hall x hx

theorem entryHit_elim (e : AlpacaStrikeEntry) (h : AlpacaHit)
    (hh : entryHit e = some h) :
    ∃ cs ps cq pq civ piv, e.call = some (some cs) ∧ e.put = some (some ps) ∧
      cs.latest_quote = some cq ∧ ps.latest_quote = some pq ∧
      cs.implied_volatility = some civ ∧ ps.implied_volatility = some piv ∧
      h = ⟨(civ + piv) / 2, cq.bid_price, cq.ask_price, pq.bid_price, pq.ask_price⟩ := by
  unfold entryHit at hh
  split at hh
  · rename_i cs ps hcall hput
    split at hh
    · rename_i cq pq civ piv hq1 hq2 hv1 hv2
      exact ⟨cs, ps, cq, pq, civ, piv, hcall, hput, hq1, hq2, hv1, hv2,
        (Option.some.inj hh).symm⟩
    · exact absurd hh (by simp)
  · exact absurd hh (by simp)

theorem firstMinBy_spec (f : α → ℚ) (l : List α) (x m : α)
    (hm : l.foldl (fun b a => if f a < f b then a else b) x = m) :
    (m = x ∨ m ∈ l) ∧ f m ≤ f x ∧ ∀ b ∈ l, f m ≤ f b := by
  induction l generalizing x with
  | nil =>
    subst hm
    exact ⟨Or.inl rfl, le_refl _, by simp⟩
  | cons a t ih =>
    rw [List.foldl_cons] at hm
    by_cases hfa : f a < f x
    · rw [if_pos hfa] at hm
      obtain ⟨h1, h2, h3⟩ := ih a hm
      refine ⟨?_, le_trans h2 (le_of_lt hfa), ?_⟩
      · rcases h1 with rfl | h1
        · exact Or.inr (by simp)
        · exact Or.inr (List.mem_cons_of_mem _ h1)
      · intro b hb
        rcases List.mem_cons.mp hb with rfl | hb
        · exact h2
        · exact h3 b hb
    · rw [if_neg hfa] at hm
      obtain ⟨h1, h2, h3⟩ := ih x hm
      refine ⟨?_, h2, ?_⟩
      · rcases h1 with rfl | h1
        · exact Or.inl rfl
        · exact Or.inr (List.mem_cons_of_mem _ h1)
      · intro b hb
        rcases List.mem_cons.mp hb with rfl | hb
        · exact le_trans h2 (not_lt.mp hfa)
        · exact h3 b hb

theorem firstMinBy_mem_min (f : α → ℚ) (l : List α) (m : α)
    (h : firstMinBy f l = some m) : m ∈ l ∧ ∀ b ∈ l, f m ≤ f b := by
  cases l with
  | nil => simp [firstMinBy] at h
  | cons x t =>
    unfold firstMinBy at h
    have hm := Option.some.inj h
    obtain ⟨h1, h2, h3⟩ := firstMinBy_spec f t x m hm
    constructor
    · rcases h1 with rfl | h1
      · exact List.mem_cons_self _ _
      · exact List.mem_cons_of_mem _ h1
    · intro b hb
      rcases List.mem_cons.mp hb with rfl | hb
      · exact h2
      · exact h3 b hb

/-- C3 counterexample: in the Alpaca (primary) path, the first expiration
(date 50) yields a valid ATM sample but its call quote lacks a bid, so the
straddle attempt there fails — yet the run's straddle is `some 8`, set
from the SECOND expiration (date 60), contradicting the claim that it
"remains undefined for the whole run and is never computed from any later
expiration". -/
theorem c3_counterexample :
    alpacaSampleAll 100 demoChain [50, 60] = ([(50, 2), (60, 2)], some 8) := by
  have h1 : entryHit demoEntryNoBid = some ⟨2, none, some 3, some 3, some 5⟩ := by
    show entryHit ⟨100, some (some ⟨some ⟨none, some 3⟩, some 2⟩),
      some (some ⟨some ⟨some 3, some 5⟩, some 2⟩)⟩ = _
    unfold entryHit
    norm_num
  have h2 : entryHit demoEntryFull = some ⟨2, some 3, some 5, some 3, some 5⟩ := by
    show entryHit ⟨100, some (some ⟨some ⟨some 3, some 5⟩, some 2⟩),
      some (some ⟨some ⟨some 3, some 5⟩, some 2⟩)⟩ = _
    unfold entryHit
    norm_num
  unfold alpacaSampleAll demoChain
  rw [List.foldl_cons, List.foldl_cons, List.foldl_nil]
  rw [alpacaStep_eq, alpacaStep_eq]
  have hl1 : lookupChain [(50, [demoEntryNoBid]), (60, [demoEntryFull])] 50 =
      some [demoEntryNoBid] := by decide
  have hl2 : lookupChain [(50, [demoEntryNoBid]), (60, [demoEntryFull])] 60 =
      some [demoEntryFull] := by decide
  have ha1 : attemptHit 100 [(50, [demoEntryNoBid]), (60, [demoEntryFull])] 50 =
      some ⟨2, none, some 3, some 3, some 5⟩ := by
    unfold attemptHit
    rw [hl1]
    show (if ([demoEntryNoBid] : List AlpacaStrikeEntry).isEmpty then none
      else alpacaScanStrikes 100 [demoEntryNoBid]) = _
    rw [if_neg (by simp)]
    unfold alpacaScanStrikes sortOn firstHit
    simp only [List.map_cons, List.map_nil, List.insertionSort, List.orderedInsert]
    rw [h1]
  have ha2 : attemptHit 100 [(50, [demoEntryNoBid]), (60, [demoEntryFull])] 60 =
      some ⟨2, some 3, some 5, some 3, some 5⟩ := by
    unfold attemptHit
    rw [hl2]
    show (if ([demoEntryFull] : List AlpacaStrikeEntry).isEmpty then none
      else alpacaScanStrikes 100 [demoEntryFull]) = _
    rw [if_neg (by simp)]
    unfold alpacaScanStrikes sortOn firstHit
    simp only [List.map_cons, List.map_nil, List.insertionSort, List.orderedInsert]
    rw [h2]
  rw [ha1, ha2]
  show (([] ++ [((50 : ℤ), (2 : ℚ))]) ++ [((60 : ℤ), (2 : ℚ))],
      straddleOfHit ⟨2, some 3, some 5, some 3, some 5⟩) = _
  unfold straddleOfHit
  norm_num

/-- C3 (amended): straddle capture differs between the two provider loops.
In the Alpaca (primary) loop the straddle is attempted at EVERY expiration
that yields a valid ATM sample until one attempt succeeds — the first
expiration whose hit carries all four of call bid/ask and put bid/ask
wins — and once set it is never overwritten.  In the Yahoo (secondary)
loop the straddle is attempted exactly once, at the first expiration whose
call and put tables are both nonempty, and is never retried on a later
expiration even when that single attempt fails. -/
theorem c3_straddle_first_success :
    (∀ (price : ℚ) (chain : List (ℤ × List AlpacaStrikeEntry)) (exps : List ℤ),
      (alpacaSampleAll price chain exps).2 = alpacaStraddleSpec price chain exps) ∧
    (∀ (price : ℚ) (l : List (ℤ × YahooChain)),
      (yahooSampleAll price l).2.1 =
        (match l.find? (fun ec => (yahooPick price ec.2).isSome) with
        | none => none
        | some ec => (yahooPick price ec.2).bind (fun cp => yahooStraddle cp.1 cp.2))) := by
  constructor
  · intro price chain exps
    unfold alpacaSampleAll
    rw [alpacaFold_straddle]
  · intro price l
    unfold yahooSampleAll
    rw [yahooFold_straddle]

/-- C4 counterexample: in the Yahoo (secondary) path the recorded ATM
implied volatility comes from TWO DIFFERENT strikes — the call nearest the
price (strike 100, IV 2) and the put nearest the price (strike 105, IV 4),
averaging to 3 — even though no strike carries both a call and a put, so
the claimed same-strike walk would have recorded no sample at all. -/
theorem c4_counterexample :
    yahooPick 100 demoYahooChain = some (⟨100, 2, none, none⟩, ⟨105, 4, none, none⟩) ∧
      (yahooStep 100 ([], none, 0) ((7 : ℤ), demoYahooChain)).1 = [((7 : ℤ), (3 : ℚ))] ∧
      (∀ x ∈ demoYahooChain.calls, ∀ y ∈ demoYahooChain.puts, x.strike ≠ y.strike) := by
  have hp : yahooPick 100 demoYahooChain =
      some (⟨100, 2, none, none⟩, ⟨105, 4, none, none⟩) := by
    unfold yahooPick demoYahooChain firstMinBy
    norm_num
  refine ⟨hp, ?_, ?_⟩
  · rw [yahooStep_some 100 ([], none, 0) ((7 : ℤ), demoYahooChain) _ _ hp]
    show [((7 : ℤ), ((2 : ℚ) + 4) / 2)] = [((7 : ℤ), (3 : ℚ))]
    have h24 : ((2 : ℚ) + 4) / 2 = 3 := by norm_num
    rw [h24]
  · intro x hx y hy
    unfold demoYahooChain at hx hy
    simp only [List.mem_singleton] at hx hy
    subst hx
    subst hy
    norm_num

/-- C4 (amended): under the primary (Alpaca) provider the sampler walks the
strikes ranked by absolute distance from the underlying price and records,
at a SINGLE strike, the mean of the call and put implied volatilities of
the closest strike passing ALL validity checks (contract presence,
snapshot, latest quote, and implied volatility on both sides — a strike
with valid IVs but a missing quote is skipped); under the secondary
(Yahoo) provider there is no validity walk: the call IV is taken at the
call strike nearest the price and the put IV at the put strike nearest the
price, independently and possibly at two different strikes, and the
recorded value is their mean. -/
theorem c4_atm_selection :
    (∀ (price : ℚ) (strikes : List AlpacaStrikeEntry) (hit : AlpacaHit),
      alpacaScanStrikes price strikes = some hit →
      ∃ e ∈ strikes, entryHit e = some hit ∧
        (∀ x ∈ strikes, (entryHit x).isSome →
          strikeDist price e ≤ strikeDist price x) ∧
        ∃ cs ps cq pq civ piv, e.call = some (some cs) ∧ e.put = some (some ps) ∧
          cs.latest_quote = some cq ∧ ps.latest_quote = some pq ∧
          cs.implied_volatility = some civ ∧ ps.implied_volatility = some piv ∧
          hit.avgIv = (civ + piv) / 2) ∧
    (∀ (price : ℚ) (ch : YahooChain) (c p : YContract),
      yahooPick price ch = some (c, p) →
      c ∈ ch.calls ∧ p ∈ ch.puts ∧
      (∀ x ∈ ch.calls, |c.strike - price| ≤ |x.strike - price|) ∧
      (∀ x ∈ ch.puts, |p.strike - price| ≤ |x.strike - price|) ∧
      (∀ (st : List (ℤ × ℚ) × Option ℚ × ℕ) (d : ℤ),
        (yahooStep price st (d, ch)).1 = st.1 ++ [(d, (c.iv + p.iv) / 2)])) := by
  constructor
  · intro price strikes hit hscan
    unfold alpacaScanStrikes at hscan
    obtain ⟨l1, e, l2, heq, hnone, hhit⟩ := firstHit_eq_some _ hit hscan
    have hmem : e ∈ strikes := by
      have : e ∈ sortOn (strikeDist price) strikes := by
        rw [heq]
        exact List.mem_append_right _ (List.mem_cons_self _ _)
      exact (sortOn_perm (strikeDist price) strikes).subset this
    refine ⟨e, hmem, hhit, ?_, ?_⟩
    · intro x hx hvalid
      have hxs : x ∈ sortOn (strikeDist price) strikes :=
        ((sortOn_perm (strikeDist price) strikes).mem_iff).mpr hx
      rw [heq] at hxs
      have hpw := sortOn_pairwise (strikeDist price) strikes
      rw [heq] at hpw
      rcases List.mem_append.mp hxs with hx1 | hx2
      · exfalso
        rw [hnone x hx1] at hvalid
        simp at hvalid
      · rcases List.mem_cons.mp hx2 with rfl | hx3
        · exact le_refl _
        · obtain ⟨-, hpw2, -⟩ := List.pairwise_append.mp hpw
          exact (List.pairwise_cons.mp hpw2).1 x hx3
    · obtain ⟨cs, ps, cq, pq, civ, piv, hc, hp2, hq1, hq2, hv1, hv2, hform⟩ :=
        entryHit_elim e hit hhit
      exact ⟨cs, ps, cq, pq, civ, piv, hc, hp2, hq1, hq2, hv1, hv2, by rw [hform]⟩
  · intro price ch c p hpick
    unfold yahooPick at hpick
    by_cases hemp : ch.calls.isEmpty ∨ ch.puts.isEmpty
    · rw [if_pos hemp] at hpick
      exact absurd hpick (by simp)
    rw [if_neg hemp] at hpick
    cases hc : firstMinBy (fun c => |c.strike - price|) ch.calls with
    | none =>
      rw [hc] at hpick
      exact absurd hpick (by simp)
    | some c2 =>
      cases hp2 : firstMinBy (fun p => |p.strike - price|) ch.puts with
      | none =>
        rw [hc, hp2] at hpick
        exact absurd hpick (by simp)
      | some p2 =>
        rw [hc, hp2] at hpick
        have hpick2 : some (c2, p2) = some (c, p) := hpick
        have h3 : (c2, p2) = (c, p) := Option.some.inj hpick2
        have hc3 : c2 = c := congrArg Prod.fst h3
        have hp3 : p2 = p := congrArg Prod.snd h3
        subst hc3
        subst hp3
        obtain ⟨hcm, hcmin⟩ := firstMinBy_mem_min _ _ _ hc
        obtain ⟨hpm, hpmin⟩ := firstMinBy_mem_min _ _ _ hp2
        refine ⟨hcm, hpm, hcmin, hpmin, ?_⟩
        intro st d
        have hpick3 : yahooPick price ((d, ch) : ℤ × YahooChain).2 = some (c2, p2) := by
          show yahooPick price ch = _
          unfold yahooPick
          rw [if_neg hemp, hc, hp2]
        rw [yahooStep_some price st (d, ch) c2 p2 hpick3]

/-- C4 witness: the Yahoo clause applied at the concrete chain with
disjoint call and put strikes. -/
theorem c4_witness :
    yahooPick 100 demoYahooChain = some (⟨100, 2, none, none⟩, ⟨105, 4, none, none⟩) ∧
      (⟨100, 2, none, none⟩ : YContract) ∈ demoYahooChain.calls ∧
      (⟨105, 4, none, none⟩ : YContract) ∈ demoYahooChain.puts := by
  have hp : yahooPick 100 demoYahooChain =
      some (⟨100, 2, none, none⟩, ⟨105, 4, none, none⟩) := by
    unfold yahooPick demoYahooChain firstMinBy
    norm_num
  have h := c4_atm_selection.2 100 demoYahooChain _ _ hp
  exact ⟨hp, h.1, h.2.1⟩

/-- C1: dual-source fallback.  When the Alpaca (primary) sampling yields
ATM implied-volatility samples for fewer than 2 distinct expirations, the
whole run equals the Yahoo-only pipeline `yahooPipeline today y` — a
function of the secondary provider's data alone — so every primary sample
(and any captured primary straddle) is discarded and the sampling,
term-structure and realized-volatility pipeline is re-run from scratch
with no primary sample merged into the secondary result set.  Conversely,
a result computed from the primary data is only ever produced under the
`2 ≤ atm.length` test. -/
theorem c1_fallback_discards_primary (today : ℤ) (a : AlpacaData) (y : YahooData)
    (exps : List ℤ)
    (hf : filter_dates today (a.chain.map (fun p => p.1)) = .ok exps)
    (hlt : (alpacaSampleAll a.price a.chain exps).1.length < 2) :
    compute_recommendation today (some a) y = yahooPipeline today y := by
  simp only [compute_recommendation]
  by_cases hc : a.chain.isEmpty
  · rw [if_pos hc]
  · rw [if_neg hc]
    simp only [hf]
    rw [if_pos hlt]

/-- C1 witness: a primary chain with one expiration and no strikes yields
zero samples, and the run falls back to the Yahoo pipeline. -/
theorem c1_witness :
    filter_dates 0 (demoAlpaca.chain.map (fun p => p.1)) = .ok [50] ∧
      (alpacaSampleAll demoAlpaca.price demoAlpaca.chain [50]).1.length < 2 ∧
      compute_recommendation 0 (some demoAlpaca) demoYahoo = yahooPipeline 0 demoYahoo := by
  have h1 : filter_dates 0 (demoAlpaca.chain.map (fun p => p.1)) = .ok [50] := by decide
  have h2 : (alpacaSampleAll demoAlpaca.price demoAlpaca.chain [50]).1.length < 2 := by decide
  exact ⟨h1, h2, c1_fallback_discards_primary 0 demoAlpaca demoYahoo [50] h1 h2⟩

/-- C9: insufficient price history is a failure, not a partial figure.
When fewer than 30 daily bars are available (from the Alpaca source, if it
is in play, and from the Yahoo source), the Yang-Zhang rolling series has
no defined value at the latest date, and the screening run never returns
a flags result: every path ends in a typed error (the volume step's
`IndexError` surfaces as `insufficientPriceHistory` when everything before
it succeeded). -/
theorem c9_insufficient_history (today : ℤ) (alp : Option AlpacaData) (y : YahooData)
    (ha : ∀ a ∈ alp, a.bars.length < 30) (hy : y.bars.length < 30) :
    yang_zhang (toBars y.bars) 30 252 = none ∧
      ∀ r, compute_recommendation today alp y ≠ .ok r := by
  have hyz : yang_zhang (toBars y.bars) 30 252 = none :=
    yang_zhang_short _ 30 252 (by norm_num) (by simpa [toBars] using hy)
  refine ⟨hyz, ?_⟩
  have hpipe : ∀ r, yahooPipeline today y ≠ .ok r := by
    intro r h
    unfold yahooPipeline at h
    by_cases h1 : y.options.isEmpty
    · rw [if_pos h1] at h
      exact absurd h (by simp)
    rw [if_neg h1] at h
    cases h2 : filter_dates today y.options with
    | error e =>
      rw [h2] at h
      exact absurd h (by simp)
    | ok exps =>
      simp only [h2] at h
      rcases h3 : yahooSampleAll y.price (exps.map (fun e => (e, y.chains e))) with ⟨atm, strd, i⟩
      simp only [h3] at h
      by_cases h4 : atm.isEmpty
      · rw [if_pos h4] at h
        exact absurd h (by simp)
      rw [if_neg h4] at h
      cases h5 : build_term_structure (dteOf today atm) (atm.map (fun p => p.2)) with
      | error e =>
        simp only [h5] at h
        exact absurd h (by simp)
      | ok ts =>
        simp only [h5] at h
        rw [if_pos hy] at h
        exact absurd h (by simp)
  intro r
  cases alp with
  | none => exact hpipe r
  | some a =>
    have ha2 : a.bars.length < 30 := ha a rfl
    intro h
    simp only [compute_recommendation] at h
    by_cases h1 : a.chain.isEmpty
    · rw [if_pos h1] at h
      exact hpipe r h
    rw [if_neg h1] at h
    cases h2 : filter_dates today (a.chain.map (fun p => p.1)) with
    | error e =>
      rw [h2] at h
      exact absurd h (by simp)
    | ok exps =>
      simp only [h2] at h
      rcases h3 : alpacaSampleAll a.price a.chain exps with ⟨atm, strd⟩
      simp only [h3] at h
      by_cases h4 : atm.length < 2
      · rw [if_pos h4] at h
        exact hpipe r h
      rw [if_neg h4] at h
      cases h5 : build_term_structure (dteOf today atm) (atm.map (fun p => p.2)) with
      | error e =>
        simp only [h5] at h
        exact hpipe r h
      | ok ts =>
        simp only [h5] at h
        rw [if_pos ha2] at h
        exact hpipe r h

/-- C9 witness: with no primary data and an empty Yahoo bar history, the
realized-volatility value is undefined and the run returns no flags. -/
theorem c9_witness :
    (∀ a ∈ (none : Option AlpacaData), a.bars.length < 30) ∧
      demoYahoo.bars.length < 30 ∧
      yang_zhang (toBars demoYahoo.bars) 30 252 = none ∧
      ∀ r, compute_recommendation 0 none demoYahoo ≠ .ok r := by
  have h := c9_insufficient_history 0 none demoYahoo (by simp) (by decide)
  exact ⟨by simp, by decide, h.1, h.2⟩

end EarningsAuto
